import Mathlib

namespace GraphQLModel

/-!
Verification development for the schema-driven graph-query translation engine
(`@neo4j/graphql` style compiler).  The repository under scrutiny ships the
TCK snapshot tests for the translation engine, the global-node resolver and
the `ContextParser`; the translation engine itself, the global-id codec and
the mutation compiler are exercised only through their snapshot tests, so
those parts are modelled from the specification (each such definition carries
a `Modelled from the spec:` doc comment) and checked against the snapshot
shapes.  Definitions come first, claim theorems at the end.
-/

/-! ### Decimal rendering of naturals (used by the parameter allocator) -/

/-- Character for one decimal digit (`0`–`9`). -/
def decimalDigitChar (d : Nat) : Char := Char.ofNat (48 + d % 10)

/-- Render a natural number in decimal, the way the parameter allocator
suffixes disambiguating counters (`param0`, `param1`, …). -/
def natToStr (n : Nat) : String :=
  if n = 0 then "0" else ⟨((Nat.digits 10 n).reverse.map decimalDigitChar)⟩

/-! ### Splitting a character list on a separator -/

/-- Split a character list on a separator character (the way `String.split`
and the dot-path / colon-token decompositions behave). -/
def splitSep (sep : Char) : List Char → List (List Char)
  | [] => [[]]
  | c :: rest =>
    if c = sep then [] :: splitSep sep rest
    else
      match splitSep sep rest with
      | [] => [[c]]
      | p :: ps => (c :: p) :: ps

/-! ### Hex encoding of characters (spec 4.6: a reversible, URL-safe encoding) -/

/-- Character for one hexadecimal digit (`0`–`9`, `a`–`f`). -/
def hexDigitChar (d : Nat) : Char :=
  if d % 16 < 10 then Char.ofNat (48 + d % 16) else Char.ofNat (87 + d % 16)

/-- Numeric value of a hexadecimal digit character, `none` on other input. -/
def hexVal (c : Char) : Option Nat :=
  if 48 ≤ c.toNat ∧ c.toNat ≤ 57 then some (c.toNat - 48)
  else if 97 ≤ c.toNat ∧ c.toNat ≤ 102 then some (c.toNat - 87)
  else none

/-- Big-endian fixed-width hexadecimal rendering of a natural number. -/
def natToHex : Nat → Nat → List Char
  | 0, _ => []
  | k + 1, n => natToHex k (n / 16) ++ [hexDigitChar (n % 16)]

/-- Left-to-right hexadecimal parse accumulating into `acc`. -/
def parseHex (acc : Nat) : List Char → Option Nat
  | [] => some acc
  | c :: rest =>
    match hexVal c with
    | some d => parseHex (acc * 16 + d) rest
    | none => none

/-! ### Global-ID codec (spec 4.6)

`Modelled from the spec:` the repository's `src/utils/global-ids` module is
absent from the sources (only its callers and tests are present).  Per the
spec the token is a reversible, URL-safe encoding of the
`(typeName, field, id)` triple, and `decode` must reject tokens that do not
decompose into exactly three parts.  We model the token as the three
components hex-encoded (URL-safe, separator-free) and joined by `:`. -/

/-- Hex-encode every character of a string (eight hex digits per character). -/
def hexEncode (l : List Char) : List Char :=
  (l.map (fun c => natToHex 8 c.toNat)).flatten

/-- Decode a hex-encoded character list; `none` when the input is not a
sequence of eight-digit hexadecimal character codes. -/
def hexDecode : List Char → Option (List Char)
  | [] => some []
  | c1 :: c2 :: c3 :: c4 :: c5 :: c6 :: c7 :: c8 :: rest =>
    match parseHex 0 [c1, c2, c3, c4, c5, c6, c7, c8], hexDecode rest with
    | some n, some cs => some (Char.ofNat n :: cs)
    | _, _ => none
  | _ => none

/-- Error raised when a global-ID token fails to decode (spec §7 taxonomy). -/
inductive CodecError where
  | malformed
  deriving DecidableEq, Repr

/-- `Modelled from the spec:` `encode(typeName, fieldName, value) -> token`
(spec 4.6); the missing `toGlobalId` of `src/utils/global-ids`. -/
def toGlobalId (typeName fieldName value : String) : String :=
  ⟨hexEncode typeName.data ++ (':' :: (hexEncode fieldName.data ++ (':' :: hexEncode value.data)))⟩

/-- `Modelled from the spec:` `decode(token) -> (typeName, fieldName, value) |
Error(Malformed)` (spec 4.6); the missing `fromGlobalId` of
`src/utils/global-ids`.  Rejects tokens that do not decompose into exactly
three parts. -/
def fromGlobalId (token : String) : Except CodecError (String × String × String) :=
  match splitSep ':' token.data with
  | [a, b, c] =>
    match hexDecode a, hexDecode b, hexDecode c with
    | some x, some y, some z => .ok (⟨x⟩, ⟨y⟩, ⟨z⟩)
    | _, _, _ => .error .malformed
  | _ => .error .malformed

/-! ### Global node resolver (`src/packages/graphql/src/schema/resolvers/global-node.ts`) -/

/-- A schema node as the resolver consumes it: `node.name` and
`node.getMainLabel()` (the `Node` class itself is external to the sources, the
resolver only reads these two). -/
structure SchemaNode where
  name : String
  mainLabel : String
  deriving DecidableEq, Repr

/-- The object the resolver returns: `{ id: _args.id, __resolveType: node.name }`
possibly spread over the record returned by the database.  The spread order
`{ ...records[0].this, ...obj }` makes `id` and `__resolveType` always win, so
they are separate fields here and `extraProps` holds the record's remaining
properties. -/
structure ResolvedObject where
  id : String
  resolveTypeName : String
  extraProps : List (String × String)
  deriving DecidableEq, Repr

/-- Result of one resolver call, together with how many database statements it
executed (the source runs `translateRead` + `execute` exactly once, and only
after all the early-return guards). -/
structure ResolveOutcome where
  result : Option ResolvedObject
  queriesExecuted : Nat
  deriving DecidableEq, Repr

/-- Shallow embedding of `globalNodeResolver(...).resolve` from
`global-node.ts` lines 30–57.  `dbQuery label field value` stands for the
external `translateRead` + `execute` round trip, returning `records[0].this`
when a record comes back.  The `l = "" ∨ f = "" ∨ v = ""` test mirrors the
JavaScript truthiness guard `if (!label || !field || !id) return null`, and a
decode failure leaves the destructured components falsy, which the same guard
catches. -/
def globalNodeResolve (nodes : List SchemaNode)
    (dbQuery : String → String → String → Option (List (String × String)))
    (token : String) : ResolveOutcome :=
  match fromGlobalId token with
  | .error _ => ⟨none, 0⟩
  | .ok (l, f, v) =>
    if l = "" ∨ f = "" ∨ v = "" then ⟨none, 0⟩
    else
      match nodes.find? (fun n => n.mainLabel = l) with
      | none => ⟨none, 0⟩
      | some node =>
        match dbQuery l f v with
        | some props =>
          ⟨some ⟨token, node.name,
            props.filter (fun p => p.1 ≠ "id" ∧ p.1 ≠ "__resolveType")⟩, 1⟩
        | none => ⟨some ⟨token, node.name, []⟩, 1⟩

/-! ### Context parser (`src/unnamed/part_001`, `ContextParser`) -/

/-- JSON-like values for the caller context (JWT claims etc.). -/
inductive JsonValue where
  | str (s : String)
  | num (n : Int)
  | boolean (b : Bool)
  | obj (fields : List (String × JsonValue))
  | arr (elems : List JsonValue)
  | null

/-- First association for a key in a JSON object field list. -/
def lookupField (k : String) : List (String × JsonValue) → Option JsonValue
  | [] => none
  | (k', v) :: rest => if k' = k then some v else lookupField k rest

/-- Walk a pre-split dotted path through nested objects, the semantics of the
`dot-prop` package's `get`: an unresolvable segment yields `none` (JavaScript
`undefined`), never an exception. -/
def getPath : JsonValue → List String → Option JsonValue
  | v, [] => some v
  | .obj fields, k :: rest =>
    match lookupField k fields with
    | some v' => getPath v' rest
    | none => none
  | _, _ :: _ => none

/-- Split a dotted path string into its segments. -/
def dotSegments (path : String) : List String :=
  (splitSep '.' path.data).map (fun l => ⟨l⟩)

namespace ContextParser

/-- `ContextParser.getContextProperty`: the source evaluates
`dotProp.get({ value: context }, "value." ++ path)`. -/
def getContextProperty (path : String) (context : JsonValue) : Option JsonValue :=
  getPath (.obj [("value", context)]) (dotSegments ("value." ++ path))

/-- `ContextParser.getJwtPropery` (name as in the source):
`getContextProperty ("jwt." ++ path)`. -/
def getJwtPropery (path : String) (context : JsonValue) : Option JsonValue :=
  getContextProperty ("jwt." ++ path) context

end ContextParser

/-! ### Translation engine data model

`Modelled from the spec:` the translation engine (`src/translate` — read
compiler, authorization injector, parameter allocator) is absent from the
sources; only its TCK snapshot tests are present.  The definitions below
follow spec §3/§4.1–4.4 and are checked against the snapshot shapes in
`tests/tck/directives/auth/arguments/where/where.test.ts` and
`src/unnamed/part_002`. -/

/-- Relationship direction (spec §3 FieldDescriptor). -/
inductive RelDir where
  | inbound
  | outbound
  deriving DecidableEq, Repr

/-- Relationship field of a TypeDescriptor: edge label, direction, weak
(by-name) target reference, required flag. -/
structure RelField where
  name : String
  relType : String
  direction : RelDir
  target : String
  required : Bool
  deriving DecidableEq, Repr

/-- Operations an AuthRule can apply to (spec §3 AuthRule). -/
inductive OpKind where
  | create
  | read
  | update
  | delete
  | connect
  | disconnect
  deriving DecidableEq, Repr

/-- AuthRule mode: Allow aborts the whole statement when false, Where silently
excludes non-matching nodes (spec §3). -/
inductive AuthMode where
  | allow
  | filterWhere
  deriving DecidableEq, Repr

/-- Predicate template of an AuthRule: compare a property of the bound node
against a caller-context (JWT) path, or require the related node to match a
nested template (`where: { creator: { id: "$jwt.sub" } }`). -/
inductive AuthTemplate where
  | claimEq (prop : String) (claimPath : String)
  | relMatch (field : String) (inner : AuthTemplate)
  deriving DecidableEq, Repr

/-- One declared authorization rule. -/
structure AuthRule where
  operations : List OpKind
  mode : AuthMode
  template : AuthTemplate
  deriving DecidableEq, Repr

/-- TypeDescriptor: name, primitive fields, relationship fields, auth rules. -/
structure TypeDef where
  name : String
  props : List String
  rels : List RelField
  rules : List AuthRule
  deriving DecidableEq, Repr

/-- The schema model: a list of TypeDescriptors, looked up by name
(weak references, spec §9). -/
abbrev Schema := List TypeDef

/-- Name-keyed type lookup. -/
def lookupType (s : Schema) (n : String) : Option TypeDef :=
  s.find? (fun t => t.name == n)

/-- Relationship-field lookup on a type. -/
def lookupRel (t : TypeDef) (f : String) : Option RelField :=
  t.rels.find? (fun r => r.name == f)

/-- A selection-tree node: the relationship field it selects, whether it is a
paginated connection field, its user-supplied filter (conjunction of
property–value equalities), the primitive properties it projects, and child
selections (spec §3 SelectionNode). -/
inductive Selection where
  | sel (fieldName : String) (isConn : Bool) (filter : List (String × String))
      (projected : List String) (children : List Selection)

/-- Field name of a selection. -/
def Selection.fieldName : Selection → String
  | .sel f _ _ _ _ => f

/-- User filter of a selection. -/
def Selection.filter : Selection → List (String × String)
  | .sel _ _ fl _ _ => fl

/-! ### Property-graph database state (for the evaluation semantics) -/

/-- A stored node. -/
structure DbNode where
  nid : Nat
  label : String
  props : List (String × String)
  deriving DecidableEq, Repr

/-- A stored relationship. -/
structure DbRel where
  src : Nat
  relType : String
  dst : Nat
  deriving DecidableEq, Repr

/-- A database state. -/
structure Graph where
  nodes : List DbNode
  rels : List DbRel
  deriving DecidableEq, Repr

/-- Property access on a stored node (`none` models a missing property /
Cypher `NULL`). -/
def propValue (n : DbNode) (p : String) : Option String :=
  (n.props.find? (fun q => q.1 == p)).map Prod.snd

/-- Nodes related to `n` over `relType` in direction `dir` carrying `label`. -/
def neighbors (g : Graph) (n : DbNode) (relType : String) (dir : RelDir)
    (label : String) : List DbNode :=
  match dir with
  | .outbound => g.nodes.filter (fun m => m.label == label &&
      g.rels.any (fun r => r.relType == relType && r.src == n.nid && r.dst == m.nid))
  | .inbound => g.nodes.filter (fun m => m.label == label &&
      g.rels.any (fun r => r.relType == relType && r.src == m.nid && r.dst == n.nid))

/-- Cypher three-valued equality collapsed to the effective boolean the
generated `(x IS NOT NULL AND x = $param)` pattern yields: a `NULL` on either
side is never `true` (spec §4.3 failure semantics). -/
def cypherEq : Option String → Option String → Bool
  | some a, some b => a == b
  | _, _ => false

/-- Resolution of an AuthRule caller-context path through the context parser:
`$jwt.path` claims resolve via `ContextParser.getJwtPropery`; a missing or
non-string claim yields `none` (JavaScript `undefined`), never an error. -/
def resolveClaim (ctx : JsonValue) (path : String) : Option String :=
  match ContextParser.getJwtPropery path ctx with
  | some (.str s) => some s
  | _ => none

/-! ### Parameter allocator (spec §4.1)

Disambiguation state is threaded explicitly through the compilation (never a
process-wide counter): the allocator keeps the set of names already used in
this translation and falls back to a numeric disambiguator when appending the
field name to the parent path would collide. -/

/-- Allocator state threaded through one translation: names already used, and
the flat parameter table built so far. -/
structure AllocSt where
  used : List String
  params : List (String × Option String)

/-- Candidate names for a base: the base itself, then numerically
disambiguated variants. -/
def nameCandidates (base : String) (n : Nat) : List String :=
  base :: (List.range (n + 1)).map (fun k => base ++ natToStr k)

/-- First candidate name not already used (total: by pigeonhole some
candidate is always free). -/
def freshName (base : String) (used : List String) : String :=
  ((nameCandidates base used.length).find? (fun c => decide (c ∉ used))).getD base

/-- Allocate a variable name. -/
def allocVar (base : String) (st : AllocSt) : String × AllocSt :=
  let v := freshName base st.used
  (v, ⟨v :: st.used, st.params⟩)

/-- Allocate a parameter name and record its value in the parameter table. -/
def allocParam (base : String) (value : Option String) (st : AllocSt) : String × AllocSt :=
  let p := freshName base st.used
  (p, ⟨p :: st.used, st.params ++ [(p, value)]⟩)

/-! ### Compiled query artifacts -/

/-- Quantifier used for a relationship sub-predicate: Allow-mode rules
compile to `exists(...) AND any(...)`, Where-mode rules to
`exists(...) AND all(...)` (TCK snapshots). -/
inductive RelQuant where
  | anyQ
  | allQ
  deriving DecidableEq, Repr

/-- A compiled boolean predicate fragment over named variables.
`comparison v prop param` is `(v.prop IS NOT NULL AND v.prop = $param)`;
`relCheck` is the `exists((v)-[:R]-(:L)) AND any/all(iv IN ... WHERE inner)`
pattern; `falsePred` is the never-true fragment a reference to a field absent
from the schema lowers to. -/
inductive CompiledPred where
  | comparison (varName prop param : String)
  | relCheck (varName relType : String) (dir : RelDir) (targetLabel innerVar : String)
      (q : RelQuant) (inner : CompiledPred)
  | falsePred (varName : String)
  deriving Repr

/-- The variable a compiled predicate is evaluated against. -/
def CompiledPred.topVar : CompiledPred → String
  | .comparison v _ _ => v
  | .relCheck v _ _ _ _ _ _ => v
  | .falsePred v => v

/-- Per-level compiled data: bound variable, node label, how the level is
reached from its parent, connection flag, WHERE conjuncts, Allow-mode
validations (predicate with failure message), projected properties. -/
structure LevelData where
  varName : String
  fieldName : String
  label : String
  relType : String
  dir : RelDir
  isConn : Bool
  wherePreds : List CompiledPred
  validations : List (CompiledPred × String)
  projected : List String

/-- A compiled level of the query tree. -/
inductive CompiledLevel where
  | mk (data : LevelData) (children : List CompiledLevel)

/-- Data of a compiled level. -/
def CompiledLevel.data : CompiledLevel → LevelData
  | .mk d _ => d

/-- Children of a compiled level. -/
def CompiledLevel.children : CompiledLevel → List CompiledLevel
  | .mk _ cs => cs

/-- The constant access-denied message: Allow-mode violations abort with this
and never leak the rule or data that caused them (spec §7). -/
def forbiddenMessage : String := "@neo4j/graphql/FORBIDDEN"

/-! ### The compiler (spec §4.2–4.4) -/

/-- Rules of a type applicable to an operation in a given mode. -/
def applicableRules (t : TypeDef) (op : OpKind) (m : AuthMode) : List AuthRule :=
  t.rules.filter (fun r => decide (r.mode = m) && decide (op ∈ r.operations))

/-- Compile one AuthRule predicate template against the variable bound at the
current level; caller-context paths resolve to literal-valued parameters
(spec §4.3), relationship references recurse with a freshly derived inner
variable so the predicate is always evaluated at the right graph position. -/
def compileAuthTemplate (schema : Schema) (ctx : JsonValue) (t : TypeDef)
    (varName : String) (q : RelQuant) :
    AuthTemplate → AllocSt → CompiledPred × AllocSt
  | .claimEq prop path, st =>
    let pr := allocParam (varName ++ "auth_param") (resolveClaim ctx path) st
    (.comparison varName prop pr.1, pr.2)
  | .relMatch field inner, st =>
    match lookupRel t field with
    | some rf =>
      match lookupType schema rf.target with
      | some tt =>
        let iv := allocVar ("auth_" ++ varName) st
        let ip := compileAuthTemplate schema ctx tt iv.1 q inner iv.2
        (.relCheck varName rf.relType rf.direction rf.target iv.1 q ip.1, ip.2)
      | none => (.falsePred varName, st)
    | none => (.falsePred varName, st)

/-- Compile the rule templates of a list of rules. -/
def compileAuthPreds (schema : Schema) (ctx : JsonValue) (t : TypeDef)
    (varName : String) (q : RelQuant) :
    List AuthRule → AllocSt → List CompiledPred × AllocSt
  | [], st => ([], st)
  | r :: rs, st =>
    let p := compileAuthTemplate schema ctx t varName q r.template st
    let ps := compileAuthPreds schema ctx t varName q rs p.2
    (p.1 :: ps.1, ps.2)

/-- Compile a user filter (conjunction of property equalities) into
parameterized comparisons over the bound variable (spec §4.2). -/
def compileFilter (varName : String) :
    List (String × String) → AllocSt → List CompiledPred × AllocSt
  | [], st => ([], st)
  | pv :: rest, st =>
    let pr := allocParam (varName ++ "param") (some pv.2) st
    let ps := compileFilter varName rest pr.2
    (.comparison varName pv.1 pr.1 :: ps.1, ps.2)

mutual

/-- Compile one level of the selection tree: user filter AND Where-mode auth
into the WHERE conjuncts, Allow-mode auth into validations carrying the
constant forbidden message, then the relationship children each under a
freshly derived naming context (spec §4.4). -/
def compileLevel (schema : Schema) (ctx : JsonValue) (op : OpKind)
    (sel : Selection) (t : TypeDef) (varName relType : String) (dir : RelDir)
    (st : AllocSt) : CompiledLevel × AllocSt :=
  match sel with
  | .sel fieldName isConn filter projected children =>
    let ups := compileFilter varName filter st
    let wps := compileAuthPreds schema ctx t varName .allQ
      (applicableRules t op .filterWhere) ups.2
    let vps := compileAuthPreds schema ctx t varName .anyQ
      (applicableRules t op .allow) wps.2
    let chs := compileChildren schema ctx op children t varName vps.2
    (.mk ⟨varName, fieldName, t.name, relType, dir, isConn, ups.1 ++ wps.1,
      vps.1.map (fun p => (p, forbiddenMessage)), projected⟩ chs.1, chs.2)

/-- Compile the child selections of a level; a selection naming a field the
schema does not declare is skipped. -/
def compileChildren (schema : Schema) (ctx : JsonValue) (op : OpKind)
    (children : List Selection) (t : TypeDef) (parentVar : String)
    (st : AllocSt) : List CompiledLevel × AllocSt :=
  match children with
  | [] => ([], st)
  | c :: cs =>
    match lookupRel t c.fieldName with
    | some rf =>
      match lookupType schema rf.target with
      | some tt =>
        let cv := allocVar (parentVar ++ "_" ++ c.fieldName) st
        let lvl := compileLevel schema ctx op c tt cv.1 rf.relType rf.direction cv.2
        let rest := compileChildren schema ctx op cs t parentVar lvl.2
        (lvl.1 :: rest.1, rest.2)
      | none => compileChildren schema ctx op cs t parentVar st
    | none => compileChildren schema ctx op cs t parentVar st

end

/-- Compile a root operation (read, or the top-level match of an
update/delete): allocates the root variable and compiles the root level,
returning the compiled tree and the flat parameter table of the whole
translation. -/
def compileOperation (schema : Schema) (ctx : JsonValue) (typeName : String)
    (sel : Selection) (op : OpKind) :
    Option (CompiledLevel × List (String × Option String)) :=
  match lookupType schema typeName with
  | some t =>
    let rv := allocVar "this" ⟨[], []⟩
    let lvl := compileLevel schema ctx op sel t rv.1 "" .outbound rv.2
    some (lvl.1, lvl.2.params)
  | none => none

/-! ### Evaluation semantics of compiled queries -/

/-- Variable environment built while evaluating nested scopes. -/
def envLookup (env : List (String × DbNode)) (v : String) : Option DbNode :=
  (env.find? (fun p => p.1 == v)).map Prod.snd

/-- Parameter table lookup (the flat binding table shipped with the query). -/
def paramLookup (table : List (String × Option String)) (k : String) :
    Option (Option String) :=
  (table.find? (fun p => p.1 == k)).map Prod.snd

/-- Evaluate a compiled predicate against the database, the parameter table
and the variable environment.  A missing parameter behaves as `NULL`. -/
def evalPred (g : Graph) (table : List (String × Option String))
    (env : List (String × DbNode)) : CompiledPred → Bool
  | .falsePred _ => false
  | .comparison v prop p =>
    match envLookup env v with
    | some n => cypherEq (propValue n prop) ((paramLookup table p).join)
    | none => false
  | .relCheck v relType dir lbl iv q inner =>
    match envLookup env v with
    | some n =>
      let ms := neighbors g n relType dir lbl
      (match q with
       | .anyQ => decide (ms ≠ []) && ms.any (fun m => evalPred g table ((iv, m) :: env) inner)
       | .allQ => decide (ms ≠ []) && ms.all (fun m => evalPred g table ((iv, m) :: env) inner))
    | none => false

/-- A value of the result projection. -/
inductive RowValue where
  | strV (s : Option String)
  | obj (fields : List (String × RowValue))
  | listV (elems : List RowValue)
  | connV (edges : List RowValue) (totalCount : Nat)

/-- The WHERE test applied to a candidate node of a level. -/
def levelWhereHolds (g : Graph) (table : List (String × Option String))
    (env : List (String × DbNode)) (lvl : CompiledLevel) (n : DbNode) : Bool :=
  lvl.data.wherePreds.all (fun p => evalPred g table ((lvl.data.varName, n) :: env) p)

mutual

/-- Evaluate a level over a list of already-matched nodes; an Allow-mode
validation failure anywhere aborts the whole evaluation through the `Except`
bind, so an error result carries no partial rows. -/
def evalNodes (g : Graph) (table : List (String × Option String))
    (env : List (String × DbNode)) (lvl : CompiledLevel) :
    List DbNode → Except String (List RowValue)
  | [] => .ok []
  | n :: rest => do
    let v ← evalNode g table env lvl n
    let vs ← evalNodes g table env lvl rest
    .ok (v :: vs)
  termination_by ns => (sizeOf lvl, ns.length, 1)

/-- Evaluate one matched node: run the level's validations first (`CALL
apoc.util.validate(...)`), then project properties and recurse into child
scopes. -/
def evalNode (g : Graph) (table : List (String × Option String))
    (env : List (String × DbNode)) : CompiledLevel → DbNode → Except String RowValue
  | .mk d children, n =>
    match d.validations.find?
        (fun vp => ! evalPred g table ((d.varName, n) :: env) vp.1) with
    | some vp => .error vp.2
    | none => do
      let kids ← evalChildren g table ((d.varName, n) :: env) children n
      .ok (.obj ((d.projected.map (fun p => (p, RowValue.strV (propValue n p)))) ++ kids))
  termination_by lvl _n => (sizeOf lvl, 0, 0)

/-- Evaluate the child scopes of one node: each child opens a nested match of
the related nodes filtered by the child's WHERE (user filter AND Where-mode
auth), then collects either a plain list or a connection object whose
`totalCount` is the size of the same collected edge list. -/
def evalChildren (g : Graph) (table : List (String × Option String))
    (env : List (String × DbNode)) :
    List CompiledLevel → DbNode → Except String (List (String × RowValue))
  | [], _ => .ok []
  | c :: rest, n => do
    let targets := (neighbors g n c.data.relType c.data.dir c.data.label).filter
      (fun m => levelWhereHolds g table env c m)
    let vals ← evalNodes g table env c targets
    let value := if c.data.isConn
      then RowValue.connV (vals.map (fun v => RowValue.obj [("node", v)]))
        (vals.map (fun v => RowValue.obj [("node", v)])).length
      else RowValue.listV vals
    let others ← evalChildren g table env rest n
    .ok ((c.data.fieldName, value) :: others)
  termination_by cs _n => (sizeOf cs, 0, 0)

end

/-- Root matched nodes: nodes of the root label passing the root WHERE. -/
def rootMatches (g : Graph) (table : List (String × Option String))
    (lvl : CompiledLevel) : List DbNode :=
  g.nodes.filter (fun n => n.label == lvl.data.label && levelWhereHolds g table [] lvl n)

/-- Evaluate a whole compiled read: match the roots and evaluate them. -/
def evalQuery (g : Graph) (table : List (String × Option String))
    (lvl : CompiledLevel) : Except String (List RowValue) :=
  evalNodes g table [] lvl (rootMatches g table lvl)

mutual

/-- Does some reached node in this list fail an Allow-mode validation
(directly or in a nested scope)? -/
def nodesViolate (g : Graph) (table : List (String × Option String))
    (env : List (String × DbNode)) (lvl : CompiledLevel) : List DbNode → Bool
  | [] => false
  | n :: rest => nodeViolates g table env lvl n || nodesViolate g table env lvl rest
  termination_by ns => (sizeOf lvl, ns.length, 1)

/-- Does this node fail one of the level's validations, or some node of a
nested scope under it fail one? -/
def nodeViolates (g : Graph) (table : List (String × Option String))
    (env : List (String × DbNode)) : CompiledLevel → DbNode → Bool
  | .mk d children, n =>
    d.validations.any (fun vp => ! evalPred g table ((d.varName, n) :: env) vp.1) ||
      childrenViolate g table ((d.varName, n) :: env) children n
  termination_by lvl _n => (sizeOf lvl, 0, 0)

/-- Violation check over the child scopes of a node. -/
def childrenViolate (g : Graph) (table : List (String × Option String))
    (env : List (String × DbNode)) : List CompiledLevel → DbNode → Bool
  | [], _ => false
  | c :: rest, n =>
    nodesViolate g table env c
      ((neighbors g n c.data.relType c.data.dir c.data.label).filter
        (fun m => levelWhereHolds g table env c m)) ||
      childrenViolate g table env rest n
  termination_by cs _n => (sizeOf cs, 0, 0)

end

/-- An Allow-mode violation somewhere in the evaluated tree of a read. -/
def queryViolates (g : Graph) (table : List (String × Option String))
    (lvl : CompiledLevel) : Bool :=
  nodesViolate g table [] lvl (rootMatches g table lvl)

/-! ### Specification-side direct semantics (for the refinement claims) -/

/-- Direct truth value of an AuthRule template at a node, written from the
spec's description of rule evaluation (used to compare the compiled WHERE
against the declared rule; `q` is the quantifier of the mode). -/
def authTemplateHolds (g : Graph) (ctx : JsonValue) (schema : Schema) (q : RelQuant) :
    AuthTemplate → TypeDef → DbNode → Bool
  | .claimEq prop path, _, n => cypherEq (propValue n prop) (resolveClaim ctx path)
  | .relMatch field inner, t, n =>
    match lookupRel t field with
    | some rf =>
      match lookupType schema rf.target with
      | some tt =>
        let ms := neighbors g n rf.relType rf.direction rf.target
        (match q with
         | .anyQ => decide (ms ≠ []) && ms.any (fun m => authTemplateHolds g ctx schema q inner tt m)
         | .allQ => decide (ms ≠ []) && ms.all (fun m => authTemplateHolds g ctx schema q inner tt m))
      | none => false
    | none => false

/-- Direct truth value of a user filter at a node (spec §4.2: conjunction of
property equalities; an empty filter is the identity predicate). -/
def userFilterHolds (n : DbNode) (filter : List (String × String)) : Bool :=
  filter.all (fun pv => cypherEq (propValue n pv.1) (some pv.2))

/-- Direct truth value of the Where-mode authorization restriction of a type
for an operation (spec §4.3). -/
def whereAuthHolds (g : Graph) (ctx : JsonValue) (schema : Schema) (t : TypeDef)
    (op : OpKind) (n : DbNode) : Bool :=
  (applicableRules t op .filterWhere).all
    (fun r => authTemplateHolds g ctx schema .allQ r.template t n)

/-! ### Mutation compiler: per-node update statement and cardinality
validation (spec §4.5)

`Modelled from the spec:` the mutation compiler (`src/translate`
create/update translators) is absent from the sources; its cardinality
validation and step ordering are specified in §4.5 and visible in the
`Update Nested Node` TCK snapshot (`SET …` before the
`apoc.util.validate(NOT (c = 1), '@neo4j/graphql/RELATIONSHIP-REQUIRED…
required', [0])` block). -/

/-- A nested relationship operation of an update input (already lowered to
the edge it merges or deletes). -/
inductive RelOp where
  | connectOp (relType : String) (dir : RelDir) (targetId : Nat)
  | disconnectOp (relType : String) (dir : RelDir) (targetId : Nat)
  deriving DecidableEq, Repr

/-- Update input for one node: primitive field assignments and nested
relationship operations. -/
structure UpdateInput where
  setProps : List (String × String)
  relOps : List RelOp
  deriving DecidableEq, Repr

/-- One step of a compiled per-node mutation statement. -/
inductive MutStep where
  | setProp (prop value : String)
  | edgeOp (op : RelOp)
  | validateCard (relType : String) (dir : RelDir) (targetLabel typeName fieldName : String)
  deriving DecidableEq, Repr

/-- The structured cardinality error: identifies the offending type and field
(`Post.creator required`), never the data (spec §7 CardinalityError). -/
def cardMsg (typeName fieldName : String) : String :=
  "@neo4j/graphql/RELATIONSHIP-REQUIRED" ++ typeName ++ "." ++ fieldName ++ " required"

/-- Field-update steps of an update input. -/
def fieldUpdateSteps (u : UpdateInput) : List MutStep :=
  u.setProps.map (fun pv => .setProp pv.1 pv.2)

/-- Relationship-operation steps of an update input. -/
def relOpSteps (u : UpdateInput) : List MutStep :=
  u.relOps.map .edgeOp

/-- Cardinality-validation steps: one for every relationship field marked
required on the node's TypeDescriptor. -/
def cardValidationSteps (t : TypeDef) : List MutStep :=
  (t.rels.filter (fun f => f.required)).map
    (fun f => .validateCard f.relType f.direction f.target t.name f.name)

/-- Compile the statement updating one node: field updates, then nested
relationship operations, then cardinality validation — the fixed order of
spec §4.5. -/
def compileUpdateNode (t : TypeDef) (u : UpdateInput) : List MutStep :=
  fieldUpdateSteps u ++ relOpSteps u ++ cardValidationSteps t

/-- How many related nodes of `targetLabel` the subject reaches over
`relType`/`dir` (the `count(…) as c` of the generated validation block). -/
def relCardCount (g : Graph) (subject : Nat) (relType : String) (dir : RelDir)
    (targetLabel : String) : Nat :=
  match (g.nodes.find? (fun n => n.nid == subject)) with
  | some n => (neighbors g n relType dir targetLabel).length
  | none => 0

/-- Set a property on the subject node. -/
def graphSetProp (g : Graph) (subject : Nat) (prop value : String) : Graph :=
  ⟨g.nodes.map (fun n =>
    if n.nid == subject then ⟨n.nid, n.label, (prop, value) :: n.props.filter (fun q => q.1 ≠ prop)⟩
    else n), g.rels⟩

/-- Apply one relationship operation for the subject node. -/
def graphEdgeOp (g : Graph) (subject : Nat) : RelOp → Graph
  | .connectOp relType dir target =>
    (match dir with
     | .outbound => ⟨g.nodes, ⟨subject, relType, target⟩ :: g.rels⟩
     | .inbound => ⟨g.nodes, ⟨target, relType, subject⟩ :: g.rels⟩)
  | .disconnectOp relType dir target =>
    (match dir with
     | .outbound => ⟨g.nodes, g.rels.filter (fun r => ¬(r.src = subject ∧ r.relType = relType ∧ r.dst = target))⟩
     | .inbound => ⟨g.nodes, g.rels.filter (fun r => ¬(r.src = target ∧ r.relType = relType ∧ r.dst = subject))⟩)

/-- Run one mutation step; only cardinality validation can fail, and it fails
the whole statement with the structured cardinality error. -/
def runStep (subject : Nat) (g : Graph) : MutStep → Except String Graph
  | .setProp prop value => .ok (graphSetProp g subject prop value)
  | .edgeOp op => .ok (graphEdgeOp g subject op)
  | .validateCard relType dir targetLabel typeName fieldName =>
    if relCardCount g subject relType dir targetLabel = 1 then .ok g
    else .error (cardMsg typeName fieldName)

/-- Run a compiled statement; a terminal failure at any step aborts the
whole statement. -/
def runSteps (subject : Nat) (g : Graph) : List MutStep → Except String Graph
  | [] => .ok g
  | s :: rest => do
    let g1 ← runStep subject g s
    runSteps subject g1 rest

/-- The graph state a non-failing step leaves behind (validation steps do not
modify the graph). -/
def applyStep (subject : Nat) (g : Graph) : MutStep → Graph
  | .setProp prop value => graphSetProp g subject prop value
  | .edgeOp op => graphEdgeOp g subject op
  | .validateCard _ _ _ _ _ => g

/-- Fold of `applyStep` over a statement. -/
def applySteps (subject : Nat) (g : Graph) : List MutStep → Graph
  | [] => g
  | s :: rest => applySteps subject (applyStep subject g s) rest

/-- The final graph state an update statement's writes produce: field updates
then relationship operations (what the cardinality validation observes). -/
def postUpdateGraph (u : UpdateInput) (subject : Nat) (g : Graph) : Graph :=
  applySteps subject g (fieldUpdateSteps u ++ relOpSteps u)

/-- Invariant of the allocator state: the parameter table has pairwise
distinct keys, every key recorded as used. -/
structure AllocInv (st : AllocSt) : Prop where
  nodupKeys : (st.params.map Prod.fst).Nodup
  keysUsed : ∀ k ∈ st.params.map Prod.fst, k ∈ st.used

/-- One compilation stage only grows the used-name set and appends to the
parameter table. -/
def AllocEvolves (st st' : AllocSt) : Prop :=
  (∀ k ∈ st.used, k ∈ st'.used) ∧ ∃ tail, st'.params = st.params ++ tail

/-- The variable-scoping invariant of claim C4: every WHERE conjunct and every
validation of a level references the variable bound at that level, and the
level's variable differs from every ancestor variable; recursively below. -/
inductive AuthScopedOk : List String → CompiledLevel → Prop where
  | mk : ∀ (anc : List String) (d : LevelData) (children : List CompiledLevel),
      (∀ p ∈ d.wherePreds, p.topVar = d.varName) →
      (∀ vp ∈ d.validations, vp.1.topVar = d.varName) →
      d.varName ∉ anc →
      (∀ c ∈ children, AuthScopedOk (d.varName :: anc) c) →
      AuthScopedOk anc (.mk d children)

/-- Every validation message anywhere in a compiled level is the constant
generic forbidden message (never the rule or the data). -/
inductive MsgsForbidden : CompiledLevel → Prop where
  | mk : ∀ (d : LevelData) (children : List CompiledLevel),
      (∀ vp ∈ d.validations, vp.2 = forbiddenMessage) →
      (∀ c ∈ children, MsgsForbidden c) →
      MsgsForbidden (.mk d children)

/-- Every connection object in a result value reports a `totalCount` equal to
the number of its edges, recursively. -/
inductive ConnConsistent : RowValue → Prop where
  | strV : ∀ s, ConnConsistent (.strV s)
  | obj : ∀ fs, (∀ kv ∈ fs, ConnConsistent (Prod.snd kv)) → ConnConsistent (.obj fs)
  | listV : ∀ vs, (∀ v ∈ vs, ConnConsistent v) → ConnConsistent (.listV vs)
  | connV : ∀ es tc, tc = es.length → (∀ e ∈ es, ConnConsistent e) →
      ConnConsistent (.connV es tc)

/-! ### Mutation statement lemmas -/

/-- Is a step a cardinality validation? -/
def MutStep.isValidate : MutStep → Bool
  | .validateCard _ _ _ _ _ => true
  | _ => false

/-! ### Concrete fixtures (mirroring the TCK User/Post auth schema) -/

/-- The `User` type of the TCK auth fixture: Where-mode rule
`{ id: "$jwt.sub" }`. -/
def userType : TypeDef :=
  ⟨"User", ["id", "name"],
   [⟨"posts", "HAS_POST", .outbound, "Post", false⟩],
   [⟨[.read, .update, .delete, .connect, .disconnect], .filterWhere, .claimEq "id" "sub"⟩]⟩

/-- The `Post` type of the TCK auth fixture: required `creator` relationship,
Where-mode rule `{ creator: { id: "$jwt.sub" } }`. -/
def postType : TypeDef :=
  ⟨"Post", ["id", "content"],
   [⟨"creator", "HAS_POST", .inbound, "User", true⟩],
   [⟨[.read, .update, .delete], .filterWhere, .relMatch "creator" (.claimEq "id" "sub")⟩]⟩

/-- The fixture schema. -/
def fixtureSchema : Schema := [userType, postType]

/-- Caller context carrying the JWT claim `sub = "id-01"`. -/
def jwtCtx : JsonValue := .obj [("jwt", .obj [("sub", .str "id-01")])]

/-- A nested selection repeating relationship hops: users (filtered by name)
with a posts connection and the posts' creator below it. -/
def nestedSel : Selection :=
  .sel "users" false [("name", "bob")] ["id"]
    [.sel "posts" true [] ["content"] [.sel "creator" false [] ["name"] []]]

/-- A database state for the fixture. -/
def fixtureGraph : Graph :=
  ⟨[⟨0, "User", [("id", "id-01"), ("name", "bob")]⟩,
    ⟨1, "Post", [("id", "p1"), ("content", "c")]⟩],
   [⟨0, "HAS_POST", 1⟩]⟩

/-- The `User` node of the fixture graph. -/
def fixtureUser : DbNode := ⟨0, "User", [("id", "id-01"), ("name", "bob")]⟩

/-- Update input of the C5 witness: sets `id` on the Post, no relationship
operations, so the required `creator` relationship stays unsatisfied in a
graph with no creator edge. -/
def c5Input : UpdateInput := ⟨[("id", "new-id")], []⟩

/-- Graph of the C5 witness: one Post and no `HAS_POST` edge. -/
def c5Graph : Graph := ⟨[⟨1, "Post", [("id", "p1")]⟩], []⟩

/-- The allow-mode variant of the fixture `User` type (the part_002 fixture:
`@auth(rules: [{ allow: { id: "$jwt.sub" } }])`). -/
def allowUserType : TypeDef :=
  ⟨"User", ["id"], [], [⟨[.read], .allow, .claimEq "id" "sub"⟩]⟩

/-- Schema of the C1 witness. -/
def c1Schema : Schema := [allowUserType]

/-- Selection of the C1 witness. -/
def c1Sel : Selection := .sel "users" false [] ["id"] []

/-- Graph of the C1 witness: the stored `User` has an id the JWT subject does
not match, so the Allow-mode rule fails. -/
def c1Graph : Graph := ⟨[⟨0, "User", [("id", "intruder")]⟩], []⟩

/-- Schema of the C7 witness: a rule-free User with posts. -/
def c7Schema : Schema :=
  [⟨"User", ["name"], [⟨"posts", "HAS_POST", .outbound, "Post", false⟩], []⟩,
   ⟨"Post", ["content"], [], []⟩]

/-- Selection of the C7 witness: a posts connection. -/
def c7Sel : Selection :=
  .sel "users" false [] ["name"] [.sel "posts" true [] ["content"] []]

/-- Graph of the C7 witness. -/
def c7Graph : Graph :=
  ⟨[⟨0, "User", [("name", "u")]⟩, ⟨1, "Post", [("content", "c")]⟩],
   [⟨0, "HAS_POST", 1⟩]⟩

/-- A single-rule guarded type for exercising the failure semantics of
caller-context resolution. -/
def c8Type (m : AuthMode) (prop path : String) : TypeDef :=
  ⟨"Protected", [prop], [], [⟨[.read], m, .claimEq prop path⟩]⟩

/-- The selection used with `c8Type`. -/
def c8Sel (prop : String) : Selection := .sel "protecteds" false [] [prop] []

theorem decimalDigitChar_inj {a b : Nat} (ha : a < 10) (hb : b < 10)
    (h : decimalDigitChar a = decimalDigitChar b) : a = b := by
  have h10 : ∀ i j : Fin 10, decimalDigitChar i.val = decimalDigitChar j.val → i = j := by decide
  have := h10 ⟨a, ha⟩ ⟨b, hb⟩ h
  exact congrArg Fin.val this

theorem map_decimalDigitChar_inj : ∀ (l₁ l₂ : List Nat),
    (∀ d ∈ l₁, d < 10) → (∀ d ∈ l₂, d < 10) →
    l₁.map decimalDigitChar = l₂.map decimalDigitChar → l₁ = l₂
  | [], [], _, _, _ => rfl
  | [], _ :: _, _, _, h => by simp at h
  | _ :: _, [], _, _, h => by simp at h
  | a :: l₁, b :: l₂, h₁, h₂, h => by
    simp only [List.map_cons, List.cons.injEq] at h
    have hab : a = b :=
      decimalDigitChar_inj (h₁ a (by simp)) (h₂ b (by simp)) h.1
    have hl : l₁ = l₂ :=
      map_decimalDigitChar_inj l₁ l₂ (fun d hd => h₁ d (by simp [hd]))
        (fun d hd => h₂ d (by simp [hd])) h.2
    rw [hab, hl]

theorem digits_map_ne_zero_str {n : Nat} (hn : n ≠ 0) :
    (⟨((Nat.digits 10 n).reverse.map decimalDigitChar)⟩ : String) ≠ "0" := by
  intro h
  have hdata : ((Nat.digits 10 n).reverse.map decimalDigitChar) = ['0'] := by
    have := congrArg String.data h
    simpa using this
  have hb : ∀ d ∈ (Nat.digits 10 n).reverse, d < 10 := by
    intro d hd
    exact Nat.digits_lt_base (by norm_num) (List.mem_reverse.mp hd)
  have h0 : (Nat.digits 10 n).reverse = [0] := by
    have : ([0] : List Nat).map decimalDigitChar = ['0'] := by decide
    exact map_decimalDigitChar_inj _ [0] hb (by simp) (hdata.trans this.symm)
  have : Nat.digits 10 n = [0] := by
    have := congrArg List.reverse h0
    simpa using this
  have : n = Nat.ofDigits 10 [0] := by
    rw [← this, Nat.ofDigits_digits]
  simp [Nat.ofDigits] at this
  exact hn this

theorem natToStr_injective : Function.Injective natToStr := by
  intro a b h
  unfold natToStr at h
  by_cases ha : a = 0 <;> by_cases hb : b = 0
  · rw [ha, hb]
  · rw [if_pos ha, if_neg hb] at h
    exact absurd h.symm (digits_map_ne_zero_str hb)
  · rw [if_neg ha, if_pos hb] at h
    exact absurd h (digits_map_ne_zero_str ha)
  · rw [if_neg ha, if_neg hb] at h
    have hdata := congrArg String.data h
    simp only [String.data] at hdata
    have hba : ∀ d ∈ (Nat.digits 10 a).reverse, d < 10 :=
      fun d hd => Nat.digits_lt_base (by norm_num) (List.mem_reverse.mp hd)
    have hbb : ∀ d ∈ (Nat.digits 10 b).reverse, d < 10 :=
      fun d hd => Nat.digits_lt_base (by norm_num) (List.mem_reverse.mp hd)
    have hrev := map_decimalDigitChar_inj _ _ hba hbb hdata
    have := List.reverse_injective hrev
    exact Nat.digits_inj_iff.mp this

theorem splitSep_ne_nil (sep : Char) : ∀ l : List Char, splitSep sep l ≠ []
  | [] => by simp [splitSep]
  | c :: rest => by
    unfold splitSep
    by_cases h : c = sep
    · simp [h]
    · simp only [if_neg h]
      cases hs : splitSep sep rest with
      | nil => simp
      | cons p ps => simp

theorem splitSep_sepFree (sep : Char) : ∀ (l : List Char),
    (∀ c ∈ l, c ≠ sep) → splitSep sep l = [l]
  | [], _ => rfl
  | c :: rest, h => by
    unfold splitSep
    rw [if_neg (h c (by simp))]
    rw [splitSep_sepFree sep rest (fun x hx => h x (by simp [hx]))]

theorem splitSep_append (sep : Char) : ∀ (a r : List Char),
    (∀ c ∈ a, c ≠ sep) → splitSep sep (a ++ sep :: r) = a :: splitSep sep r
  | [], r, _ => by simp [splitSep]
  | c :: a, r, h => by
    have ih := splitSep_append sep a r (fun x hx => h x (by simp [hx]))
    simp only [List.cons_append, splitSep, if_neg (h c (by simp)), List.append_eq, ih]

theorem hexVal_hexDigitChar (d : Nat) (hd : d < 16) : hexVal (hexDigitChar d) = some d := by
  have h16 : ∀ i : Fin 16, hexVal (hexDigitChar i.val) = some i.val := by decide
  have := h16 ⟨d, hd⟩
  simpa using this

theorem hexDigitChar_ne_colon (d : Nat) : hexDigitChar d ≠ ':' := by
  have h16 : ∀ i : Fin 16, hexDigitChar i.val ≠ ':' := by decide
  have hmod : hexDigitChar d = hexDigitChar (d % 16) := by
    unfold hexDigitChar
    rw [Nat.mod_mod_of_dvd]
    exact Dvd.intro 1 rfl
  rw [hmod]
  exact h16 ⟨d % 16, Nat.mod_lt d (by norm_num)⟩

theorem parseHex_append (acc : Nat) : ∀ (xs ys : List Char),
    parseHex acc (xs ++ ys) = (parseHex acc xs).bind (fun a => parseHex a ys)
  | [], ys => rfl
  | c :: xs, ys => by
    simp only [List.cons_append, parseHex]
    cases hexVal c with
    | none => rfl
    | some d => exact parseHex_append _ xs ys

theorem parseHex_natToHex : ∀ (k acc n : Nat), n < 16 ^ k →
    parseHex acc (natToHex k n) = some (acc * 16 ^ k + n)
  | 0, acc, n, h => by
    have : n = 0 := Nat.lt_one_iff.mp (by simpa using h)
    simp [natToHex, parseHex, this]
  | k + 1, acc, n, h => by
    unfold natToHex
    rw [parseHex_append]
    have hdiv : n / 16 < 16 ^ k := by
      rw [Nat.div_lt_iff_lt_mul (by norm_num)]
      calc n < 16 ^ (k + 1) := h
        _ = 16 ^ k * 16 := by ring
    rw [parseHex_natToHex k acc (n / 16) hdiv]
    simp only [Option.some_bind, parseHex, hexVal_hexDigitChar (n % 16) (Nat.mod_lt n (by norm_num))]
    congr 1
    have hmod := Nat.div_add_mod n 16
    calc (acc * 16 ^ k + n / 16) * 16 + n % 16
        = acc * (16 ^ k * 16) + (16 * (n / 16) + n % 16) := by ring
      _ = acc * 16 ^ (k + 1) + n := by rw [hmod]; ring

theorem string_data_mk (l : List Char) : (String.mk l).data = l := rfl

theorem char_toNat_lt (c : Char) : c.toNat < 16 ^ 8 := by
  rcases c.valid with h | h
  · exact Nat.lt_trans h (by norm_num)
  · exact Nat.lt_trans h.2 (by norm_num)

theorem hexEncode_sepFree (l : List Char) : ∀ c ∈ hexEncode l, c ≠ ':' := by
  intro c hc
  unfold hexEncode at hc
  rw [List.mem_flatten] at hc
  obtain ⟨chunk, hchunk, hcmem⟩ := hc
  rw [List.mem_map] at hchunk
  obtain ⟨ch, _, rfl⟩ := hchunk
  have : ∀ k n, ∀ x ∈ natToHex k n, x ≠ ':' := by
    intro k
    induction k with
    | zero => intro n x hx; simp [natToHex] at hx
    | succ k ih =>
      intro n x hx
      unfold natToHex at hx
      rw [List.mem_append] at hx
      rcases hx with hx | hx
      · exact ih _ x hx
      · simp only [List.mem_singleton] at hx
        rw [hx]
        exact hexDigitChar_ne_colon _
  exact this 8 ch.toNat c hcmem

theorem hexDecode_hexEncode : ∀ l : List Char, hexDecode (hexEncode l) = some l
  | [] => rfl
  | c :: rest => by
    have henc : hexEncode (c :: rest) = natToHex 8 c.toNat ++ hexEncode rest := by
      simp [hexEncode]
    have hlen : ∃ d1 d2 d3 d4 d5 d6 d7 d8,
        natToHex 8 c.toNat = [d1, d2, d3, d4, d5, d6, d7, d8] := by
      have : ∀ (k n : Nat), (natToHex k n).length = k := by
        intro k
        induction k with
        | zero => intro n; rfl
        | succ k ih => intro n; simp [natToHex, ih]
      have h8 := this 8 c.toNat
      match hh : natToHex 8 c.toNat with
      | [d1, d2, d3, d4, d5, d6, d7, d8] => exact ⟨d1, d2, d3, d4, d5, d6, d7, d8, rfl⟩
      | [] | [_] | [_, _] | [_, _, _] | [_, _, _, _] | [_, _, _, _, _]
      | [_, _, _, _, _, _] | [_, _, _, _, _, _, _]
      | _ :: _ :: _ :: _ :: _ :: _ :: _ :: _ :: _ :: _ => rw [hh] at h8; simp at h8
    obtain ⟨d1, d2, d3, d4, d5, d6, d7, d8, hd⟩ := hlen
    have hparse : parseHex 0 [d1, d2, d3, d4, d5, d6, d7, d8] = some c.toNat := by
      rw [← hd]
      have := parseHex_natToHex 8 0 c.toNat (char_toNat_lt c)
      simpa using this
    rw [henc, hd]
    show hexDecode (d1 :: d2 :: d3 :: d4 :: d5 :: d6 :: d7 :: d8 :: hexEncode rest) = _
    unfold hexDecode
    rw [hparse, hexDecode_hexEncode rest]
    simp [Char.ofNat_toNat]

theorem fromGlobalId_toGlobalId (t f v : String) :
    fromGlobalId (toGlobalId t f v) = .ok (t, f, v) := by
  unfold fromGlobalId toGlobalId
  have hsplit : splitSep ':'
      (hexEncode t.data ++ (':' :: (hexEncode f.data ++ (':' :: hexEncode v.data))))
      = [hexEncode t.data, hexEncode f.data, hexEncode v.data] := by
    rw [splitSep_append ':' _ _ (hexEncode_sepFree t.data),
      splitSep_append ':' _ _ (hexEncode_sepFree f.data),
      splitSep_sepFree ':' _ (hexEncode_sepFree v.data)]
  rw [string_data_mk, hsplit]
  simp only [hexDecode_hexEncode]

theorem fromGlobalId_not_three (s : String)
    (h : (splitSep ':' s.data).length ≠ 3) : fromGlobalId s = .error .malformed := by
  unfold fromGlobalId
  match hs : splitSep ':' s.data with
  | [a, b, c] => rw [hs] at h; simp at h
  | [] => rfl
  | [_] => rfl
  | [_, _] => rfl
  | _ :: _ :: _ :: _ :: _ => rfl

/-! ### Allocator lemmas: freshness, invariants, monotonicity -/

theorem string_ext {s₁ s₂ : String} (h : s₁.data = s₂.data) : s₁ = s₂ := by
  cases s₁
  cases s₂
  cases h
  rfl

theorem string_append_cancel {base x y : String} (h : base ++ x = base ++ y) : x = y := by
  have hd := congrArg String.data h
  rw [String.data_append, String.data_append] at hd
  exact string_ext (List.append_cancel_left hd)

theorem natToStr_ne_empty (n : Nat) : natToStr n ≠ "" := by
  unfold natToStr
  by_cases h : n = 0
  · rw [if_pos h]
    decide
  · rw [if_neg h]
    intro he
    have hd : (Nat.digits 10 n).reverse.map decimalDigitChar = [] := congrArg String.data he
    have h1 : (Nat.digits 10 n).reverse = [] := List.map_eq_nil_iff.mp hd
    have h2 : Nat.digits 10 n = [] := by simpa using congrArg List.reverse h1
    exact (Nat.digits_ne_nil_iff_ne_zero.mpr h) h2

theorem append_natToStr_ne (base : String) (k : Nat) : base ≠ base ++ natToStr k := by
  intro h
  have : base ++ "" = base ++ natToStr k := by simpa using h
  exact natToStr_ne_empty k (string_append_cancel this).symm

theorem nameCandidates_nodup (base : String) (n : Nat) : (nameCandidates base n).Nodup := by
  unfold nameCandidates
  refine List.nodup_cons.mpr ⟨?_, ?_⟩
  · intro hmem
    obtain ⟨k, _, hk⟩ := List.mem_map.mp hmem
    exact append_natToStr_ne base k hk.symm
  · refine (List.nodup_range (n + 1)).map ?_
    intro i j hij
    exact natToStr_injective (string_append_cancel hij)

theorem nameCandidates_length (base : String) (n : Nat) :
    (nameCandidates base n).length = n + 2 := by
  simp [nameCandidates]

theorem freshName_not_mem (base : String) (used : List String) :
    freshName base used ∉ used := by
  unfold freshName
  cases hf : (nameCandidates base used.length).find? (fun c => decide (c ∉ used)) with
  | some c =>
    have := List.find?_some hf
    simpa using of_decide_eq_true (by simpa using this)
  | none =>
    exfalso
    have hall : ∀ c ∈ nameCandidates base used.length, c ∈ used := by
      intro c hc
      have := List.find?_eq_none.mp hf c hc
      simpa using this
    have hnd := nameCandidates_nodup base used.length
    have hsub : (nameCandidates base used.length).toFinset ⊆ used.toFinset := by
      intro x hx
      rw [List.mem_toFinset] at hx ⊢
      exact hall x hx
    have hcard := Finset.card_le_card hsub
    rw [List.toFinset_card_of_nodup hnd, nameCandidates_length] at hcard
    have := le_trans hcard (List.toFinset_card_le used)
    omega

theorem AllocEvolves.rfl (st : AllocSt) : AllocEvolves st st :=
  ⟨fun _ hk => hk, [], by simp⟩

theorem AllocEvolves.trans {s1 s2 s3 : AllocSt}
    (h12 : AllocEvolves s1 s2) (h23 : AllocEvolves s2 s3) : AllocEvolves s1 s3 := by
  obtain ⟨hu12, t12, hp12⟩ := h12
  obtain ⟨hu23, t23, hp23⟩ := h23
  exact ⟨fun k hk => hu23 k (hu12 k hk), t12 ++ t23, by rw [hp23, hp12, List.append_assoc]⟩

theorem allocVar_evolves (base : String) (st : AllocSt) :
    AllocEvolves st (allocVar base st).2 :=
  ⟨fun k hk => by simp [allocVar, hk], [], by simp [allocVar]⟩

theorem allocVar_inv (base : String) (st : AllocSt) (h : AllocInv st) :
    AllocInv (allocVar base st).2 := by
  refine ⟨h.nodupKeys, ?_⟩
  intro k hk
  have hu := h.keysUsed k hk
  simp only [allocVar, List.mem_cons]
  exact Or.inr hu

theorem allocVar_fresh (base : String) (st : AllocSt) :
    (allocVar base st).1 ∉ st.used := freshName_not_mem base st.used

theorem allocVar_mem (base : String) (st : AllocSt) :
    (allocVar base st).1 ∈ (allocVar base st).2.used := by simp [allocVar]

theorem allocParam_evolves (base : String) (value : Option String) (st : AllocSt) :
    AllocEvolves st (allocParam base value st).2 :=
  ⟨fun k hk => by simp [allocParam, hk], [(freshName base st.used, value)], by simp [allocParam]⟩

theorem allocParam_inv (base : String) (value : Option String) (st : AllocSt)
    (h : AllocInv st) : AllocInv (allocParam base value st).2 := by
  refine ⟨?_, ?_⟩
  · simp only [allocParam, List.map_append, List.map_cons, List.map_nil]
    rw [List.nodup_append]
    refine ⟨h.nodupKeys, by simp, ?_⟩
    intro k hk hk1
    simp only [List.mem_singleton] at hk1
    rw [hk1] at hk
    exact freshName_not_mem base st.used (h.keysUsed _ hk)
  · intro k hk
    simp only [allocParam, List.map_append, List.map_cons, List.map_nil,
      List.mem_append, List.mem_singleton] at hk
    rcases hk with hk | hk
    · simp only [allocParam, List.mem_cons]
      exact Or.inr (h.keysUsed k hk)
    · simp [allocParam, hk]

theorem allocParam_mem (base : String) (value : Option String) (st : AllocSt) :
    ((allocParam base value st).1, value) ∈ (allocParam base value st).2.params := by
  simp [allocParam]

/-- First-match association lookup finds the recorded value when the keys are
pairwise distinct. -/
theorem paramLookup_of_mem_nodup : ∀ (table : List (String × Option String)) (k : String)
    (v : Option String), (table.map Prod.fst).Nodup → (k, v) ∈ table →
    paramLookup table k = some v
  | [], _, _, _, hmem => by simp at hmem
  | (k', v') :: rest, k, v, hnd, hmem => by
    simp only [List.map_cons, List.nodup_cons] at hnd
    rcases List.mem_cons.mp hmem with heq | htail
    · obtain ⟨hk, hv⟩ := Prod.ext_iff.mp heq
      subst hk
      subst hv
      simp [paramLookup, List.find?_cons]
    · by_cases hk : k' = k
      · exfalso
        subst hk
        exact hnd.1 (List.mem_map.mpr ⟨(k', v), htail, rfl⟩)
      · have ih := paramLookup_of_mem_nodup rest k v hnd.2 htail
        have hbeq : (k' == k) = false := by simp [hk]
        simp only [paramLookup, List.find?_cons, hbeq] at ih ⊢
        exact ih

theorem envLookup_head (v : String) (n : DbNode) (env : List (String × DbNode)) :
    envLookup ((v, n) :: env) v = some n := by
  simp [envLookup, List.find?]

/-! ### Compiler stage lemmas: state evolution and invariant preservation -/

theorem compileFilter_alloc (varName : String) : ∀ (fl : List (String × String)) (st : AllocSt),
    AllocEvolves st (compileFilter varName fl st).2 ∧
    (AllocInv st → AllocInv (compileFilter varName fl st).2)
  | [], st => ⟨AllocEvolves.rfl st, fun h => h⟩
  | pv :: rest, st => by
    have h1 := allocParam_evolves (varName ++ "param") (some pv.2) st
    have hrec := compileFilter_alloc varName rest (allocParam (varName ++ "param") (some pv.2) st).2
    exact ⟨AllocEvolves.trans h1 hrec.1, fun hinv => hrec.2 (allocParam_inv _ _ _ hinv)⟩

theorem compileAuthTemplate_alloc (schema : Schema) (ctx : JsonValue) (q : RelQuant) :
    ∀ (tmpl : AuthTemplate) (t : TypeDef) (varName : String) (st : AllocSt),
    AllocEvolves st (compileAuthTemplate schema ctx t varName q tmpl st).2 ∧
    (AllocInv st → AllocInv (compileAuthTemplate schema ctx t varName q tmpl st).2)
  | .claimEq prop path, t, varName, st =>
    ⟨allocParam_evolves _ _ _, fun h => allocParam_inv _ _ _ h⟩
  | .relMatch field inner, t, varName, st => by
    cases hrf : lookupRel t field with
    | none =>
      simp only [compileAuthTemplate, hrf]
      exact ⟨AllocEvolves.rfl st, id⟩
    | some rf =>
      cases htt : lookupType schema rf.target with
      | none =>
        simp only [compileAuthTemplate, hrf, htt]
        exact ⟨AllocEvolves.rfl st, id⟩
      | some tt =>
        have h1 := allocVar_evolves ("auth_" ++ varName) st
        have h2 := compileAuthTemplate_alloc schema ctx q inner tt
          (allocVar ("auth_" ++ varName) st).1 (allocVar ("auth_" ++ varName) st).2
        simp only [compileAuthTemplate, hrf, htt]
        exact ⟨AllocEvolves.trans h1 h2.1, fun hinv => h2.2 (allocVar_inv _ _ hinv)⟩

theorem compileAuthPreds_alloc (schema : Schema) (ctx : JsonValue) (q : RelQuant) :
    ∀ (rules : List AuthRule) (t : TypeDef) (varName : String) (st : AllocSt),
    AllocEvolves st (compileAuthPreds schema ctx t varName q rules st).2 ∧
    (AllocInv st → AllocInv (compileAuthPreds schema ctx t varName q rules st).2)
  | [], t, varName, st => ⟨AllocEvolves.rfl st, id⟩
  | r :: rs, t, varName, st => by
    have h1 := compileAuthTemplate_alloc schema ctx q r.template t varName st
    have hrec := compileAuthPreds_alloc schema ctx q rs t varName
      (compileAuthTemplate schema ctx t varName q r.template st).2
    exact ⟨AllocEvolves.trans h1.1 hrec.1, fun hinv => hrec.2 (h1.2 hinv)⟩

mutual

theorem compileLevel_alloc (schema : Schema) (ctx : JsonValue) (op : OpKind) :
    ∀ (sel : Selection) (t : TypeDef) (varName relType : String) (dir : RelDir) (st : AllocSt),
    AllocEvolves st (compileLevel schema ctx op sel t varName relType dir st).2 ∧
    (AllocInv st → AllocInv (compileLevel schema ctx op sel t varName relType dir st).2)
  | .sel f c fl pj ch, t, varName, relType, dir, st => by
    have h1 := compileFilter_alloc varName fl st
    have h2 := compileAuthPreds_alloc schema ctx .allQ (applicableRules t op .filterWhere)
      t varName (compileFilter varName fl st).2
    have h3 := compileAuthPreds_alloc schema ctx .anyQ (applicableRules t op .allow)
      t varName (compileAuthPreds schema ctx t varName .allQ
        (applicableRules t op .filterWhere) (compileFilter varName fl st).2).2
    have h4 := compileChildren_alloc schema ctx op ch t varName
      (compileAuthPreds schema ctx t varName .anyQ (applicableRules t op .allow)
        (compileAuthPreds schema ctx t varName .allQ
          (applicableRules t op .filterWhere) (compileFilter varName fl st).2).2).2
    simp only [compileLevel]
    exact ⟨AllocEvolves.trans (AllocEvolves.trans (AllocEvolves.trans h1.1 h2.1) h3.1) h4.1,
      fun hinv => h4.2 (h3.2 (h2.2 (h1.2 hinv)))⟩
  termination_by sel => (sizeOf sel, 0)

theorem compileChildren_alloc (schema : Schema) (ctx : JsonValue) (op : OpKind) :
    ∀ (children : List Selection) (t : TypeDef) (parentVar : String) (st : AllocSt),
    AllocEvolves st (compileChildren schema ctx op children t parentVar st).2 ∧
    (AllocInv st → AllocInv (compileChildren schema ctx op children t parentVar st).2)
  | [], t, parentVar, st => by
    simp only [compileChildren]
    exact ⟨AllocEvolves.rfl st, id⟩
  | c :: cs, t, parentVar, st => by
    cases hrf : lookupRel t c.fieldName with
    | none =>
      have hrec := compileChildren_alloc schema ctx op cs t parentVar st
      simp only [compileChildren, hrf]
      exact hrec
    | some rf =>
      cases htt : lookupType schema rf.target with
      | none =>
        have hrec := compileChildren_alloc schema ctx op cs t parentVar st
        simp only [compileChildren, hrf, htt]
        exact hrec
      | some tt =>
        have h1 := allocVar_evolves (parentVar ++ "_" ++ c.fieldName) st
        have h2 := compileLevel_alloc schema ctx op c tt
          (allocVar (parentVar ++ "_" ++ c.fieldName) st).1 rf.relType rf.direction
          (allocVar (parentVar ++ "_" ++ c.fieldName) st).2
        have h3 := compileChildren_alloc schema ctx op cs t parentVar
          (compileLevel schema ctx op c tt
            (allocVar (parentVar ++ "_" ++ c.fieldName) st).1 rf.relType rf.direction
            (allocVar (parentVar ++ "_" ++ c.fieldName) st).2).2
        simp only [compileChildren, hrf, htt]
        exact ⟨AllocEvolves.trans (AllocEvolves.trans h1 h2.1) h3.1,
          fun hinv => h3.2 (h2.2 (allocVar_inv _ _ hinv))⟩
  termination_by children => (sizeOf children, 0)

end

/-! ### Compile-side structural properties -/

theorem compileAuthTemplate_topVar (schema : Schema) (ctx : JsonValue) (q : RelQuant) :
    ∀ (tmpl : AuthTemplate) (t : TypeDef) (varName : String) (st : AllocSt),
    ((compileAuthTemplate schema ctx t varName q tmpl st).1).topVar = varName
  | .claimEq prop path, t, varName, st => rfl
  | .relMatch field inner, t, varName, st => by
    cases hrf : lookupRel t field with
    | none => simp [compileAuthTemplate, hrf, CompiledPred.topVar]
    | some rf =>
      cases htt : lookupType schema rf.target with
      | none => simp [compileAuthTemplate, hrf, htt, CompiledPred.topVar]
      | some tt => simp [compileAuthTemplate, hrf, htt, CompiledPred.topVar]

theorem compileAuthPreds_topVars (schema : Schema) (ctx : JsonValue) (q : RelQuant) :
    ∀ (rules : List AuthRule) (t : TypeDef) (varName : String) (st : AllocSt),
    ∀ p ∈ (compileAuthPreds schema ctx t varName q rules st).1, p.topVar = varName
  | [], t, varName, st => by simp [compileAuthPreds]
  | r :: rs, t, varName, st => by
    intro p hp
    simp only [compileAuthPreds, List.mem_cons] at hp
    rcases hp with hp | hp
    · rw [hp]
      exact compileAuthTemplate_topVar schema ctx q r.template t varName st
    · exact compileAuthPreds_topVars schema ctx q rs t varName _ p hp

theorem compileFilter_topVars (varName : String) :
    ∀ (fl : List (String × String)) (st : AllocSt),
    ∀ p ∈ (compileFilter varName fl st).1, p.topVar = varName
  | [], st => by simp [compileFilter]
  | pv :: rest, st => by
    intro p hp
    simp only [compileFilter, List.mem_cons] at hp
    rcases hp with hp | hp
    · rw [hp]; rfl
    · exact compileFilter_topVars varName rest _ p hp

mutual

theorem compileLevel_scoped (schema : Schema) (ctx : JsonValue) (op : OpKind) :
    ∀ (sel : Selection) (t : TypeDef) (varName relType : String) (dir : RelDir)
      (st : AllocSt) (anc : List String),
    (∀ a ∈ anc, a ∈ st.used) → varName ∈ st.used → varName ∉ anc →
    AuthScopedOk anc (compileLevel schema ctx op sel t varName relType dir st).1
  | .sel f c fl pj ch, t, varName, relType, dir, st, anc, hanc, hvu, hvn => by
    have h1 := compileFilter_alloc varName fl st
    have h2 := compileAuthPreds_alloc schema ctx .allQ (applicableRules t op .filterWhere)
      t varName (compileFilter varName fl st).2
    have h3 := compileAuthPreds_alloc schema ctx .anyQ (applicableRules t op .allow)
      t varName (compileAuthPreds schema ctx t varName .allQ
        (applicableRules t op .filterWhere) (compileFilter varName fl st).2).2
    have hev := AllocEvolves.trans (AllocEvolves.trans h1.1 h2.1) h3.1
    simp only [compileLevel]
    refine AuthScopedOk.mk anc _ _ ?_ ?_ hvn ?_
    · intro p hp
      rcases List.mem_append.mp hp with hp | hp
      · exact compileFilter_topVars varName fl st p hp
      · exact compileAuthPreds_topVars schema ctx .allQ _ t varName _ p hp
    · intro vp hvp
      obtain ⟨p, hp, rfl⟩ := List.mem_map.mp hvp
      exact compileAuthPreds_topVars schema ctx .anyQ _ t varName _ p hp
    · intro c' hc'
      refine compileChildren_scoped schema ctx op ch t varName _ (varName :: anc) ?_ c' hc'
      intro a ha
      rcases List.mem_cons.mp ha with ha | ha
      · rw [ha]; exact hev.1 varName hvu
      · exact hev.1 a (hanc a ha)
  termination_by sel => (sizeOf sel, 0)

theorem compileChildren_scoped (schema : Schema) (ctx : JsonValue) (op : OpKind) :
    ∀ (children : List Selection) (t : TypeDef) (parentVar : String)
      (st : AllocSt) (anc : List String),
    (∀ a ∈ anc, a ∈ st.used) →
    ∀ c' ∈ (compileChildren schema ctx op children t parentVar st).1, AuthScopedOk anc c'
  | [], t, parentVar, st, anc, hanc => by simp [compileChildren]
  | c :: cs, t, parentVar, st, anc, hanc => by
    cases hrf : lookupRel t c.fieldName with
    | none =>
      simp only [compileChildren, hrf]
      exact compileChildren_scoped schema ctx op cs t parentVar st anc hanc
    | some rf =>
      cases htt : lookupType schema rf.target with
      | none =>
        simp only [compileChildren, hrf, htt]
        exact compileChildren_scoped schema ctx op cs t parentVar st anc hanc
      | some tt =>
        intro c' hc'
        simp only [compileChildren, hrf, htt, List.mem_cons] at hc'
        rcases hc' with hc' | hc'
        · rw [hc']
          refine compileLevel_scoped schema ctx op c tt _ rf.relType rf.direction _ anc ?_ ?_ ?_
          · intro a ha
            exact (allocVar_evolves (parentVar ++ "_" ++ c.fieldName) st).1 a (hanc a ha)
          · exact allocVar_mem _ st
          · intro hmem
            exact allocVar_fresh (parentVar ++ "_" ++ c.fieldName) st (hanc _ hmem)
        · refine compileChildren_scoped schema ctx op cs t parentVar _ anc ?_ c' hc'
          intro a ha
          have hev := AllocEvolves.trans
            (allocVar_evolves (parentVar ++ "_" ++ c.fieldName) st)
            (compileLevel_alloc schema ctx op c tt
              (allocVar (parentVar ++ "_" ++ c.fieldName) st).1 rf.relType rf.direction
              (allocVar (parentVar ++ "_" ++ c.fieldName) st).2).1
          exact hev.1 a (hanc a ha)
  termination_by children => (sizeOf children, 0)

end

mutual

theorem compileLevel_msgs (schema : Schema) (ctx : JsonValue) (op : OpKind) :
    ∀ (sel : Selection) (t : TypeDef) (varName relType : String) (dir : RelDir) (st : AllocSt),
    MsgsForbidden (compileLevel schema ctx op sel t varName relType dir st).1
  | .sel f c fl pj ch, t, varName, relType, dir, st => by
    simp only [compileLevel]
    refine MsgsForbidden.mk _ _ ?_ ?_
    · intro vp hvp
      obtain ⟨p, _, rfl⟩ := List.mem_map.mp hvp
      rfl
    · exact compileChildren_msgs schema ctx op ch t varName _
  termination_by sel => (sizeOf sel, 0)

theorem compileChildren_msgs (schema : Schema) (ctx : JsonValue) (op : OpKind) :
    ∀ (children : List Selection) (t : TypeDef) (parentVar : String) (st : AllocSt),
    ∀ c' ∈ (compileChildren schema ctx op children t parentVar st).1, MsgsForbidden c'
  | [], t, parentVar, st => by simp [compileChildren]
  | c :: cs, t, parentVar, st => by
    cases hrf : lookupRel t c.fieldName with
    | none =>
      simp only [compileChildren, hrf]
      exact compileChildren_msgs schema ctx op cs t parentVar st
    | some rf =>
      cases htt : lookupType schema rf.target with
      | none =>
        simp only [compileChildren, hrf, htt]
        exact compileChildren_msgs schema ctx op cs t parentVar st
      | some tt =>
        intro c' hc'
        simp only [compileChildren, hrf, htt, List.mem_cons] at hc'
        rcases hc' with hc' | hc'
        · rw [hc']
          exact compileLevel_msgs schema ctx op c tt _ rf.relType rf.direction _
        · exact compileChildren_msgs schema ctx op cs t parentVar _ c' hc'
  termination_by children => (sizeOf children, 0)

end

/-! ### Evaluation-side lemmas -/

theorem except_bind_ok {α β : Type} (v : α) (f : α → Except String β) :
    (Except.ok v >>= f) = f v := rfl

theorem except_bind_error {α β : Type} (e : String) (f : α → Except String β) :
    ((Except.error e : Except String α) >>= f) = Except.error e := rfl

mutual

theorem evalNodes_spec (g : Graph) (table : List (String × Option String))
    (env : List (String × DbNode)) : ∀ (lvl : CompiledLevel) (ns : List DbNode),
    MsgsForbidden lvl →
    (nodesViolate g table env lvl ns = true →
      evalNodes g table env lvl ns = .error forbiddenMessage) ∧
    (nodesViolate g table env lvl ns = false →
      ∃ vs, evalNodes g table env lvl ns = .ok vs)
  | lvl, [], _ =>
    ⟨by simp [nodesViolate], fun _ => ⟨[], by simp [evalNodes]⟩⟩
  | lvl, n :: rest, hm => by
    have hn := evalNode_spec g table env lvl n hm
    have hrest := evalNodes_spec g table env lvl rest hm
    constructor
    · intro hv
      simp only [nodesViolate, Bool.or_eq_true] at hv
      by_cases hnv : nodeViolates g table env lvl n = true
      · simp only [evalNodes]
        rw [hn.1 hnv, except_bind_error]
      · have hrv : nodesViolate g table env lvl rest = true := by
          rcases hv with hv | hv
          · exact absurd hv hnv
          · exact hv
        obtain ⟨v, hok⟩ := hn.2 (Bool.not_eq_true _ ▸ hnv)
        simp only [evalNodes]
        rw [hok, except_bind_ok, hrest.1 hrv, except_bind_error]
    · intro hv
      simp only [nodesViolate, Bool.or_eq_false_iff] at hv
      obtain ⟨v, hok⟩ := hn.2 hv.1
      obtain ⟨vs, hoks⟩ := hrest.2 hv.2
      refine ⟨v :: vs, ?_⟩
      simp only [evalNodes]
      rw [hok, except_bind_ok, hoks, except_bind_ok]
  termination_by lvl ns => (sizeOf lvl, ns.length, 1)

theorem evalNode_spec (g : Graph) (table : List (String × Option String))
    (env : List (String × DbNode)) : ∀ (lvl : CompiledLevel) (n : DbNode),
    MsgsForbidden lvl →
    (nodeViolates g table env lvl n = true →
      evalNode g table env lvl n = .error forbiddenMessage) ∧
    (nodeViolates g table env lvl n = false →
      ∃ v, evalNode g table env lvl n = .ok v)
  | .mk d children, n, hm => by
    have hmsg : ∀ vp ∈ d.validations, vp.2 = forbiddenMessage := by
      cases hm with
      | mk d children hmsg hch => exact hmsg
    have hch : ∀ c ∈ children, MsgsForbidden c := by
      cases hm with
      | mk d children hmsg hch => exact hch
    have hcs := evalChildren_spec g table ((d.varName, n) :: env) children n hch
    constructor
    · intro hv
      simp only [nodeViolates, Bool.or_eq_true] at hv
      cases hfind : d.validations.find?
          (fun vp => ! evalPred g table ((d.varName, n) :: env) vp.1) with
      | some vp =>
        have hmem := List.mem_of_find?_eq_some hfind
        simp only [evalNode, hfind]
        rw [hmsg vp hmem]
      | none =>
        have hany : d.validations.any
            (fun vp => ! evalPred g table ((d.varName, n) :: env) vp.1) = false := by
          rw [List.any_eq_false]
          intro vp hvp
          have := List.find?_eq_none.mp hfind vp hvp
          simpa using this
        have hvc : childrenViolate g table ((d.varName, n) :: env) children n = true := by
          rcases hv with hv | hv
          · rw [hany] at hv; exact absurd hv (by simp)
          · exact hv
        simp only [evalNode, hfind]
        rw [hcs.1 hvc, except_bind_error]
    · intro hv
      simp only [nodeViolates, Bool.or_eq_false_iff] at hv
      have hfind : d.validations.find?
          (fun vp => ! evalPred g table ((d.varName, n) :: env) vp.1) = none := by
        rw [List.find?_eq_none]
        intro vp hvp
        have := List.any_eq_false.mp hv.1 vp hvp
        simpa using this
      obtain ⟨kids, hk⟩ := hcs.2 hv.2
      refine ⟨.obj ((d.projected.map (fun p => (p, RowValue.strV (propValue n p)))) ++ kids), ?_⟩
      simp only [evalNode, hfind]
      rw [hk, except_bind_ok]
  termination_by lvl _n => (sizeOf lvl, 0, 0)

theorem evalChildren_spec (g : Graph) (table : List (String × Option String))
    (env : List (String × DbNode)) : ∀ (cs : List CompiledLevel) (n : DbNode),
    (∀ c ∈ cs, MsgsForbidden c) →
    (childrenViolate g table env cs n = true →
      evalChildren g table env cs n = .error forbiddenMessage) ∧
    (childrenViolate g table env cs n = false →
      ∃ kids, evalChildren g table env cs n = .ok kids)
  | [], n, _ =>
    ⟨by simp [childrenViolate], fun _ => ⟨[], by simp [evalChildren]⟩⟩
  | c :: rest, n, hm => by
    have hc := evalNodes_spec g table env c
      ((neighbors g n c.data.relType c.data.dir c.data.label).filter
        (fun m => levelWhereHolds g table env c m)) (hm c (by simp))
    have hrest := evalChildren_spec g table env rest n (fun x hx => hm x (by simp [hx]))
    constructor
    · intro hv
      simp only [childrenViolate, Bool.or_eq_true] at hv
      by_cases hnv : nodesViolate g table env c
          ((neighbors g n c.data.relType c.data.dir c.data.label).filter
            (fun m => levelWhereHolds g table env c m)) = true
      · simp only [evalChildren]
        rw [hc.1 hnv, except_bind_error]
      · have hrv : childrenViolate g table env rest n = true := by
          rcases hv with hv | hv
          · exact absurd hv hnv
          · exact hv
        obtain ⟨vals, hok⟩ := hc.2 (Bool.not_eq_true _ ▸ hnv)
        simp only [evalChildren]
        rw [hok, except_bind_ok, hrest.1 hrv, except_bind_error]
    · intro hv
      simp only [childrenViolate, Bool.or_eq_false_iff] at hv
      obtain ⟨vals, hok⟩ := hc.2 hv.1
      obtain ⟨others, hoks⟩ := hrest.2 hv.2
      refine ⟨(c.data.fieldName,
        if c.data.isConn
          then RowValue.connV (vals.map (fun v => RowValue.obj [("node", v)]))
            (vals.map (fun v => RowValue.obj [("node", v)])).length
          else RowValue.listV vals) :: others, ?_⟩
      simp only [evalChildren]
      rw [hok, except_bind_ok, hoks, except_bind_ok]
  termination_by cs _n => (sizeOf cs, 0, 0)

end

mutual

theorem evalNodes_conn (g : Graph) (table : List (String × Option String))
    (env : List (String × DbNode)) : ∀ (lvl : CompiledLevel) (ns : List DbNode)
    (vs : List RowValue), evalNodes g table env lvl ns = .ok vs →
    ∀ v ∈ vs, ConnConsistent v
  | lvl, [], vs, hok => by
    simp only [evalNodes] at hok
    cases hok
    simp
  | lvl, n :: rest, vs, hok => by
    intro v hv
    simp only [evalNodes] at hok
    cases h1 : evalNode g table env lvl n with
    | error e => rw [h1, except_bind_error] at hok; cases hok
    | ok v1 =>
      rw [h1, except_bind_ok] at hok
      cases h2 : evalNodes g table env lvl rest with
      | error e => rw [h2, except_bind_error] at hok; cases hok
      | ok vs1 =>
        rw [h2, except_bind_ok] at hok
        cases hok
        rcases List.mem_cons.mp hv with hv | hv
        · rw [hv]
          exact evalNode_conn g table env lvl n v1 h1
        · exact evalNodes_conn g table env lvl rest vs1 h2 v hv
  termination_by lvl ns => (sizeOf lvl, ns.length, 1)

theorem evalNode_conn (g : Graph) (table : List (String × Option String))
    (env : List (String × DbNode)) : ∀ (lvl : CompiledLevel) (n : DbNode)
    (v : RowValue), evalNode g table env lvl n = .ok v → ConnConsistent v
  | .mk d children, n, v, hok => by
    simp only [evalNode] at hok
    cases hfind : d.validations.find?
        (fun vp => ! evalPred g table ((d.varName, n) :: env) vp.1) with
    | some vp => rw [hfind] at hok; cases hok
    | none =>
      rw [hfind] at hok
      cases hk : evalChildren g table ((d.varName, n) :: env) children n with
      | error e => rw [hk, except_bind_error] at hok; cases hok
      | ok kids =>
        rw [hk, except_bind_ok] at hok
        cases hok
        refine ConnConsistent.obj _ ?_
        intro kv hkv
        rcases List.mem_append.mp hkv with hkv | hkv
        · obtain ⟨p, _, rfl⟩ := List.mem_map.mp hkv
          exact ConnConsistent.strV _
        · exact evalChildren_conn g table ((d.varName, n) :: env) children n kids hk kv hkv
  termination_by lvl _n => (sizeOf lvl, 0, 0)

theorem evalChildren_conn (g : Graph) (table : List (String × Option String))
    (env : List (String × DbNode)) : ∀ (cs : List CompiledLevel) (n : DbNode)
    (kids : List (String × RowValue)), evalChildren g table env cs n = .ok kids →
    ∀ kv ∈ kids, ConnConsistent (Prod.snd kv)
  | [], n, kids, hok => by
    simp only [evalChildren] at hok
    cases hok
    simp
  | c :: rest, n, kids, hok => by
    intro kv hkv
    simp only [evalChildren] at hok
    cases h1 : evalNodes g table env c
        ((neighbors g n c.data.relType c.data.dir c.data.label).filter
          (fun m => levelWhereHolds g table env c m)) with
    | error e => rw [h1, except_bind_error] at hok; cases hok
    | ok vals =>
      rw [h1, except_bind_ok] at hok
      cases h2 : evalChildren g table env rest n with
      | error e => rw [h2, except_bind_error] at hok; cases hok
      | ok others =>
        rw [h2, except_bind_ok] at hok
        cases hok
        have hvals : ∀ v ∈ vals, ConnConsistent v := evalNodes_conn g table env c _ vals h1
        rcases List.mem_cons.mp hkv with hkv | hkv
        · rw [hkv]
          by_cases hic : c.data.isConn
          · simp only [hic, if_pos]
            refine ConnConsistent.connV _ _ rfl ?_
            intro e he
            obtain ⟨v, hvm, rfl⟩ := List.mem_map.mp he
            refine ConnConsistent.obj _ ?_
            intro kv2 hkv2
            simp only [List.mem_singleton] at hkv2
            rw [hkv2]
            exact hvals v hvm
          · simp only [hic, if_neg, ite_false]
            exact ConnConsistent.listV _ hvals
        · exact evalChildren_conn g table env rest n others h2 kv hkv
  termination_by cs _n => (sizeOf cs, 0, 0)

end

/-! ### Coherence of compiled predicates with the declared semantics -/

theorem list_any_congr {α : Type} {f g : α → Bool} :
    ∀ {l : List α}, (∀ x ∈ l, f x = g x) → l.any f = l.any g
  | [], _ => rfl
  | x :: xs, h => by
    simp only [List.any_cons]
    rw [h x (by simp), list_any_congr (fun y hy => h y (by simp [hy]))]

theorem list_all_congr {α : Type} {f g : α → Bool} :
    ∀ {l : List α}, (∀ x ∈ l, f x = g x) → l.all f = l.all g
  | [], _ => rfl
  | x :: xs, h => by
    simp only [List.all_cons]
    rw [h x (by simp), list_all_congr (fun y hy => h y (by simp [hy]))]

theorem mem_params_of_evolves {st st' : AllocSt} (h : AllocEvolves st st')
    {kv : String × Option String} (hm : kv ∈ st.params) : kv ∈ st'.params := by
  obtain ⟨-, tail, hp⟩ := h
  rw [hp]
  exact List.mem_append_left _ hm

/-- A compiled AuthRule template evaluates, in any parameter table that
retains this compilation's entries, exactly to the declared template
semantics at the node bound to the level variable. -/
theorem compileAuthTemplate_eval (schema : Schema) (ctx : JsonValue) (q : RelQuant)
    (g : Graph) : ∀ (tmpl : AuthTemplate) (t : TypeDef) (varName : String) (st : AllocSt)
    (T : List (String × Option String)) (env : List (String × DbNode)) (n : DbNode),
    (∀ kv ∈ (compileAuthTemplate schema ctx t varName q tmpl st).2.params, kv ∈ T) →
    (T.map Prod.fst).Nodup →
    envLookup env varName = some n →
    evalPred g T env (compileAuthTemplate schema ctx t varName q tmpl st).1 =
      authTemplateHolds g ctx schema q tmpl t n
  | .claimEq prop path, t, varName, st, T, env, n => by
    intro hT hnd henv
    have hmem : ((allocParam (varName ++ "auth_param") (resolveClaim ctx path) st).1,
        resolveClaim ctx path) ∈ T := by
      refine hT _ ?_
      exact allocParam_mem _ _ _
    have hlook := paramLookup_of_mem_nodup T _ _ hnd hmem
    simp only [compileAuthTemplate, evalPred, henv, authTemplateHolds, hlook, Option.join]
    rfl
  | .relMatch field inner, t, varName, st, T, env, n => by
    intro hT hnd henv
    cases hrf : lookupRel t field with
    | none => simp [compileAuthTemplate, hrf, evalPred, authTemplateHolds]
    | some rf =>
      cases htt : lookupType schema rf.target with
      | none => simp [compileAuthTemplate, hrf, htt, evalPred, authTemplateHolds]
      | some tt =>
        have hT' : ∀ kv ∈ (compileAuthTemplate schema ctx tt
            (allocVar ("auth_" ++ varName) st).1 q inner
            (allocVar ("auth_" ++ varName) st).2).2.params, kv ∈ T := by
          intro kv hkv
          refine hT kv ?_
          simp only [compileAuthTemplate, hrf, htt]
          exact hkv
        have hinner : ∀ m : DbNode,
            evalPred g T (((allocVar ("auth_" ++ varName) st).1, m) :: env)
              (compileAuthTemplate schema ctx tt
                (allocVar ("auth_" ++ varName) st).1 q inner
                (allocVar ("auth_" ++ varName) st).2).1 =
            authTemplateHolds g ctx schema q inner tt m := by
          intro m
          exact compileAuthTemplate_eval schema ctx q g inner tt _ _ T _ m hT' hnd
            (envLookup_head _ m env)
        simp only [compileAuthTemplate, hrf, htt, evalPred, henv, authTemplateHolds]
        cases q with
        | anyQ =>
          simp only []
          congr 1
          exact list_any_congr (fun m _ => hinner m)
        | allQ =>
          simp only []
          congr 1
          exact list_all_congr (fun m _ => hinner m)

/-- Compiled user-filter conjuncts evaluate exactly to the user filter's
declared semantics. -/
theorem compileFilter_eval (g : Graph) (varName : String) :
    ∀ (fl : List (String × String)) (st : AllocSt)
    (T : List (String × Option String)) (env : List (String × DbNode)) (n : DbNode),
    (∀ kv ∈ (compileFilter varName fl st).2.params, kv ∈ T) →
    (T.map Prod.fst).Nodup →
    envLookup env varName = some n →
    (compileFilter varName fl st).1.all (fun p => evalPred g T env p) =
      userFilterHolds n fl
  | [], st, T, env, n => by
    intro _ _ _
    simp [compileFilter, userFilterHolds]
  | pv :: rest, st, T, env, n => by
    intro hT hnd henv
    have hstep := compileFilter_alloc varName rest
      (allocParam (varName ++ "param") (some pv.2) st).2
    have hmem : ((allocParam (varName ++ "param") (some pv.2) st).1,
        some pv.2) ∈ T := by
      refine hT _ ?_
      refine mem_params_of_evolves hstep.1 ?_
      exact allocParam_mem _ _ _
    have hlook := paramLookup_of_mem_nodup T _ _ hnd hmem
    have hrest := compileFilter_eval g varName rest
      (allocParam (varName ++ "param") (some pv.2) st).2 T env n
      (fun kv hkv => hT kv hkv) hnd henv
    simp only [compileFilter, List.all_cons, hrest, evalPred, henv, hlook, Option.join,
      userFilterHolds, List.all_cons]
    rfl

/-- Compiled Where-mode rule predicates evaluate exactly to the rules'
declared semantics. -/
theorem compileAuthPreds_eval (schema : Schema) (ctx : JsonValue) (q : RelQuant)
    (g : Graph) : ∀ (rules : List AuthRule) (t : TypeDef) (varName : String) (st : AllocSt)
    (T : List (String × Option String)) (env : List (String × DbNode)) (n : DbNode),
    (∀ kv ∈ (compileAuthPreds schema ctx t varName q rules st).2.params, kv ∈ T) →
    (T.map Prod.fst).Nodup →
    envLookup env varName = some n →
    (compileAuthPreds schema ctx t varName q rules st).1.all (fun p => evalPred g T env p) =
      rules.all (fun r => authTemplateHolds g ctx schema q r.template t n)
  | [], t, varName, st, T, env, n => by
    intro _ _ _
    simp [compileAuthPreds]
  | r :: rs, t, varName, st, T, env, n => by
    intro hT hnd henv
    have hstep := compileAuthPreds_alloc schema ctx q rs t varName
      (compileAuthTemplate schema ctx t varName q r.template st).2
    have hhead := compileAuthTemplate_eval schema ctx q g r.template t varName st T env n
      (fun kv hkv => hT kv (mem_params_of_evolves hstep.1 hkv)) hnd henv
    have hrest := compileAuthPreds_eval schema ctx q g rs t varName
      (compileAuthTemplate schema ctx t varName q r.template st).2 T env n
      (fun kv hkv => hT kv hkv) hnd henv
    simp only [compileAuthPreds, List.all_cons, hhead, hrest]

theorem runSteps_append (subject : Nat) : ∀ (a b : List MutStep) (g : Graph),
    runSteps subject g (a ++ b) =
      (runSteps subject g a) >>= fun g1 => runSteps subject g1 b
  | [], b, g => rfl
  | s :: rest, b, g => by
    simp only [List.cons_append, runSteps]
    cases hs : runStep subject g s with
    | error e => rfl
    | ok g1 =>
      rw [except_bind_ok, except_bind_ok]
      exact runSteps_append subject rest b g1

theorem runStep_no_validate (subject : Nat) (g : Graph) (s : MutStep)
    (h : s.isValidate = false) : runStep subject g s = .ok (applyStep subject g s) := by
  cases s with
  | setProp p v => rfl
  | edgeOp op => rfl
  | validateCard rt dir lbl tn fn => simp [MutStep.isValidate] at h

theorem runSteps_no_validate (subject : Nat) : ∀ (steps : List MutStep) (g : Graph),
    (∀ s ∈ steps, s.isValidate = false) →
    runSteps subject g steps = .ok (applySteps subject g steps)
  | [], g, _ => rfl
  | s :: rest, g, h => by
    simp only [runSteps, applySteps]
    rw [runStep_no_validate subject g s (h s (by simp)), except_bind_ok]
    exact runSteps_no_validate subject rest _ (fun x hx => h x (by simp [hx]))

theorem fieldUpdateSteps_no_validate (u : UpdateInput) :
    ∀ s ∈ fieldUpdateSteps u, s.isValidate = false := by
  intro s hs
  obtain ⟨pv, _, rfl⟩ := List.mem_map.mp hs
  rfl

theorem relOpSteps_no_validate (u : UpdateInput) :
    ∀ s ∈ relOpSteps u, s.isValidate = false := by
  intro s hs
  obtain ⟨op, _, rfl⟩ := List.mem_map.mp hs
  rfl

/-- Behavior of a block of cardinality validations: it passes iff every
listed field resolves to exactly one related node, leaves the graph
untouched, and fails with the structured error of the first violated field
otherwise. -/
theorem runCardList (subject : Nat) (tn : String) : ∀ (l : List RelField) (g : Graph),
    ((∀ f ∈ l, relCardCount g subject f.relType f.direction f.target = 1) →
      runSteps subject g (l.map
        (fun f => .validateCard f.relType f.direction f.target tn f.name)) = .ok g) ∧
    ((∃ f ∈ l, relCardCount g subject f.relType f.direction f.target ≠ 1) →
      ∃ f ∈ l, relCardCount g subject f.relType f.direction f.target ≠ 1 ∧
        runSteps subject g (l.map
          (fun f => .validateCard f.relType f.direction f.target tn f.name)) =
          .error (cardMsg tn f.name))
  | [], g => ⟨fun _ => rfl, fun h => by simp at h⟩
  | f :: rest, g => by
    have hrest := runCardList subject tn rest g
    constructor
    · intro hall
      have hf := hall f (by simp)
      have hstep : runStep subject g
          (.validateCard f.relType f.direction f.target tn f.name) = .ok g := by
        simp [runStep, hf]
      simp only [List.map_cons, runSteps]
      rw [hstep, except_bind_ok]
      exact hrest.1 (fun x hx => hall x (by simp [hx]))
    · intro hex
      by_cases hf : relCardCount g subject f.relType f.direction f.target = 1
      · obtain ⟨f1, hf1, hne⟩ := hex
        have hf1r : f1 ∈ rest := by
          rcases List.mem_cons.mp hf1 with heq | htail
          · exfalso; rw [heq] at hne; exact hne hf
          · exact htail
        obtain ⟨f2, hf2, hne2, herr⟩ := hrest.2 ⟨f1, hf1r, hne⟩
        have hstep : runStep subject g
            (.validateCard f.relType f.direction f.target tn f.name) = .ok g := by
          simp [runStep, hf]
        refine ⟨f2, by simp [hf2], hne2, ?_⟩
        simp only [List.map_cons, runSteps]
        rw [hstep, except_bind_ok]
        exact herr
      · have hstep : runStep subject g
            (.validateCard f.relType f.direction f.target tn f.name) =
            .error (cardMsg tn f.name) := by
          simp [runStep, hf]
        refine ⟨f, by simp, hf, ?_⟩
        simp only [List.map_cons, runSteps]
        rw [hstep]
        rfl

theorem applySteps_append (subject : Nat) : ∀ (a b : List MutStep) (g : Graph),
    applySteps subject g (a ++ b) = applySteps subject (applySteps subject g a) b
  | [], b, g => rfl
  | s :: rest, b, g => by
    simp only [List.cons_append, applySteps]
    exact applySteps_append subject rest b _

/-! ### Claim theorems -/

/-- C1: for every read in which an Allow-mode rule — on the root or on any
nested relationship selection — evaluates false, the compiled query aborts
the entire statement with the single generic access-denied failure: the
result is `Except.error` carrying exactly the constant
`"@neo4j/graphql/FORBIDDEN"` (never the rule or data that caused it), and an
`Except.error` result carries no rows, so no partial data from any branch is
returned. -/
theorem c1_allow_violation_aborts_read (schema : Schema) (ctx : JsonValue)
    (typeName : String) (sel : Selection) (g : Graph)
    (lvl : CompiledLevel) (table : List (String × Option String))
    (hcomp : compileOperation schema ctx typeName sel .read = some (lvl, table))
    (hviol : queryViolates g table lvl = true) :
    evalQuery g table lvl = .error forbiddenMessage := by
  unfold compileOperation at hcomp
  cases ht : lookupType schema typeName with
  | none => rw [ht] at hcomp; cases hcomp
  | some t =>
    rw [ht] at hcomp
    have hlvl : (compileLevel schema ctx .read sel t
        (allocVar "this" ⟨[], []⟩).1 "" .outbound (allocVar "this" ⟨[], []⟩).2).1 = lvl := by
      cases hcomp; rfl
    have hm : MsgsForbidden lvl := by
      rw [← hlvl]
      exact compileLevel_msgs schema ctx .read sel t _ "" .outbound _
    exact (evalNodes_spec g table [] lvl (rootMatches g table lvl) hm).1 hviol

/-- C2: the parameter table produced by one translation has no duplicate
keys — every generated parameter name within the translation is unique, for
every selection tree (in particular under repeated relationship field names
at different nesting depths). -/
theorem c2_parameter_names_unique (schema : Schema) (ctx : JsonValue)
    (typeName : String) (sel : Selection) (op : OpKind)
    (lvl : CompiledLevel) (table : List (String × Option String))
    (hcomp : compileOperation schema ctx typeName sel op = some (lvl, table)) :
    (table.map Prod.fst).Nodup := by
  unfold compileOperation at hcomp
  cases ht : lookupType schema typeName with
  | none => rw [ht] at hcomp; cases hcomp
  | some t =>
    rw [ht] at hcomp
    have htable : (compileLevel schema ctx op sel t
        (allocVar "this" ⟨[], []⟩).1 "" .outbound (allocVar "this" ⟨[], []⟩).2).2.params
        = table := by
      cases hcomp; rfl
    have hinv0 : AllocInv (⟨[], []⟩ : AllocSt) := ⟨List.nodup_nil, by simp⟩
    have hinv1 : AllocInv (allocVar "this" ⟨[], []⟩).2 := allocVar_inv _ _ hinv0
    have hinv2 := (compileLevel_alloc schema ctx op sel t
      (allocVar "this" ⟨[], []⟩).1 "" .outbound (allocVar "this" ⟨[], []⟩).2).2 hinv1
    rw [← htable]
    exact hinv2.nodupKeys

/-- C3: for a read, update or delete on a type carrying both a user filter
and Where-mode authorization, the compiled WHERE test of the root match is
exactly the conjunction (AND) of the user filter's declared semantics and the
Where-mode rules' declared semantics — neither replaces or weakens the
other. -/
theorem c3_where_is_conjunction (schema : Schema) (ctx : JsonValue)
    (typeName : String) (sel : Selection) (op : OpKind) (g : Graph) (n : DbNode)
    (t : TypeDef) (lvl : CompiledLevel) (table : List (String × Option String))
    (_hop : op = .read ∨ op = .update ∨ op = .delete)
    (ht : lookupType schema typeName = some t)
    (hcomp : compileOperation schema ctx typeName sel op = some (lvl, table)) :
    levelWhereHolds g table [] lvl n =
      (userFilterHolds n sel.filter && whereAuthHolds g ctx schema t op n) := by
  unfold compileOperation at hcomp
  rw [ht] at hcomp
  have hlvl : (compileLevel schema ctx op sel t
      (allocVar "this" ⟨[], []⟩).1 "" .outbound (allocVar "this" ⟨[], []⟩).2).1 = lvl := by
    cases hcomp; rfl
  have htable : (compileLevel schema ctx op sel t
      (allocVar "this" ⟨[], []⟩).1 "" .outbound (allocVar "this" ⟨[], []⟩).2).2.params
      = table := by
    cases hcomp; rfl
  have hinv0 : AllocInv (⟨[], []⟩ : AllocSt) := ⟨List.nodup_nil, by simp⟩
  have hinv1 : AllocInv (allocVar "this" ⟨[], []⟩).2 := allocVar_inv _ _ hinv0
  have hinvF := (compileLevel_alloc schema ctx op sel t
    (allocVar "this" ⟨[], []⟩).1 "" .outbound (allocVar "this" ⟨[], []⟩).2).2 hinv1
  have hnd : (table.map Prod.fst).Nodup := by rw [← htable]; exact hinvF.nodupKeys
  cases sel with
  | sel f c fl pj ch =>
    subst hlvl
    subst htable
    set rv := allocVar "this" (⟨[], []⟩ : AllocSt) with hrv
    have h1 := compileFilter_alloc rv.1 fl rv.2
    have h2 := compileAuthPreds_alloc schema ctx .allQ (applicableRules t op .filterWhere)
      t rv.1 (compileFilter rv.1 fl rv.2).2
    have h3 := compileAuthPreds_alloc schema ctx .anyQ (applicableRules t op .allow)
      t rv.1 (compileAuthPreds schema ctx t rv.1 .allQ
        (applicableRules t op .filterWhere) (compileFilter rv.1 fl rv.2).2).2
    have h4 := compileChildren_alloc schema ctx op ch t rv.1
      (compileAuthPreds schema ctx t rv.1 .anyQ (applicableRules t op .allow)
        (compileAuthPreds schema ctx t rv.1 .allQ
          (applicableRules t op .filterWhere) (compileFilter rv.1 fl rv.2).2).2).2
    have hfin := AllocEvolves.trans h3.1 h4.1
    have hfilter := compileFilter_eval g rv.1 fl rv.2 _ [(rv.1, n)] n
      (fun kv hkv => mem_params_of_evolves (AllocEvolves.trans h2.1 hfin)
        hkv) hinvF.nodupKeys (envLookup_head rv.1 n [])
    have hauth := compileAuthPreds_eval schema ctx .allQ g
      (applicableRules t op .filterWhere) t rv.1 (compileFilter rv.1 fl rv.2).2 _
      [(rv.1, n)] n
      (fun kv hkv => mem_params_of_evolves hfin hkv) hinvF.nodupKeys
      (envLookup_head rv.1 n [])
    simp only [levelWhereHolds, compileLevel, CompiledLevel.data, Selection.filter]
    rw [List.all_append]
    rw [hfilter, hauth]
    rfl

/-- C4: every authorization predicate attached at a nesting level of the
compiled query references the variable bound at that level (its top variable
is the level's own variable), and that variable is distinct from every
ancestor level's variable — auth is never evaluated against an ancestor's
variable. -/
theorem c4_auth_bound_at_own_level (schema : Schema) (ctx : JsonValue)
    (typeName : String) (sel : Selection) (op : OpKind)
    (lvl : CompiledLevel) (table : List (String × Option String))
    (hcomp : compileOperation schema ctx typeName sel op = some (lvl, table)) :
    AuthScopedOk [] lvl := by
  unfold compileOperation at hcomp
  cases ht : lookupType schema typeName with
  | none => rw [ht] at hcomp; cases hcomp
  | some t =>
    rw [ht] at hcomp
    have hlvl : (compileLevel schema ctx op sel t
        (allocVar "this" ⟨[], []⟩).1 "" .outbound (allocVar "this" ⟨[], []⟩).2).1 = lvl := by
      cases hcomp; rfl
    rw [← hlvl]
    refine compileLevel_scoped schema ctx op sel t _ "" .outbound _ [] ?_ ?_ ?_
    · intro a ha
      simp at ha
    · exact allocVar_mem "this" ⟨[], []⟩
    · simp

/-- C5: the statement updating one node is always field updates, then the
nested relationship operations, then the cardinality validations; the
validation of every required relationship field runs against the graph
produced by the preceding writes, demands exactly one related node
(count = 1), succeeds when all required fields resolve to exactly one, and on
any other count fails the whole statement with the structured error naming
the offending type and field (`Post.creator required` style). -/
theorem c5_cardinality_validation (t : TypeDef) (u : UpdateInput)
    (subject : Nat) (g : Graph) :
    compileUpdateNode t u = fieldUpdateSteps u ++ relOpSteps u ++ cardValidationSteps t ∧
    ((∀ f ∈ t.rels, f.required →
        relCardCount (postUpdateGraph u subject g) subject f.relType f.direction f.target = 1) →
      runSteps subject g (compileUpdateNode t u) = .ok (postUpdateGraph u subject g)) ∧
    ((∃ f ∈ t.rels, f.required ∧
        relCardCount (postUpdateGraph u subject g) subject f.relType f.direction f.target ≠ 1) →
      ∃ f ∈ t.rels, f.required ∧
        relCardCount (postUpdateGraph u subject g) subject f.relType f.direction f.target ≠ 1 ∧
        runSteps subject g (compileUpdateNode t u) = .error (cardMsg t.name f.name)) := by
  have hpre : runSteps subject g (fieldUpdateSteps u ++ relOpSteps u) =
      .ok (postUpdateGraph u subject g) := by
    refine runSteps_no_validate subject _ g ?_
    intro s hs
    rcases List.mem_append.mp hs with hs | hs
    · exact fieldUpdateSteps_no_validate u s hs
    · exact relOpSteps_no_validate u s hs
  have hsplit : runSteps subject g (compileUpdateNode t u) =
      runSteps subject (postUpdateGraph u subject g) (cardValidationSteps t) := by
    unfold compileUpdateNode
    rw [runSteps_append, hpre, except_bind_ok]
  have hcard := runCardList subject t.name (t.rels.filter (fun f => f.required))
    (postUpdateGraph u subject g)
  refine ⟨rfl, ?_, ?_⟩
  · intro hall
    rw [hsplit]
    exact hcard.1 (fun f hf => hall f (List.mem_of_mem_filter hf)
      (by simpa using List.of_mem_filter hf))
  · intro hex
    obtain ⟨f, hf, hreq, hne⟩ := hex
    obtain ⟨f2, hf2, hne2, herr⟩ := hcard.2
      ⟨f, List.mem_filter.mpr ⟨hf, by simpa using hreq⟩, hne⟩
    refine ⟨f2, List.mem_of_mem_filter hf2, by simpa using List.of_mem_filter hf2, hne2, ?_⟩
    rw [hsplit]
    exact herr

/-- C6: decoding the token produced by encoding any (typeName, fieldName,
value) triple returns exactly that triple, and decoding a string that does
not decompose into exactly three parts yields `CodecError.malformed` rather
than a triple. -/
theorem c6_globalid_roundtrip :
    (∀ t f v : String, fromGlobalId (toGlobalId t f v) = .ok (t, f, v)) ∧
    (∀ s : String, (splitSep ':' s.data).length ≠ 3 →
      fromGlobalId s = .error .malformed) :=
  ⟨fromGlobalId_toGlobalId, fromGlobalId_not_three⟩

/-- C7: in the result of a compiled read, every connection value reports a
`totalCount` equal to the number of its edges — the count is computed over
the same filtered and authorization-restricted match that produced the
edges, so they can never disagree, for any database state. -/
theorem c7_totalcount_consistent (schema : Schema) (ctx : JsonValue)
    (typeName : String) (sel : Selection) (g : Graph)
    (lvl : CompiledLevel) (table : List (String × Option String))
    (vs : List RowValue)
    (_hcomp : compileOperation schema ctx typeName sel .read = some (lvl, table))
    (hok : evalQuery g table lvl = .ok vs) :
    ∀ v ∈ vs, ConnConsistent v :=
  evalNodes_conn g table [] lvl (rootMatches g table lvl) vs hok

/-- C9: a global-ID lookup whose token fails to decode, or whose decoded
type name matches no schema type, returns null without raising an error and
without executing any database query. -/
theorem c9_resolver_null_no_query (nodes : List SchemaNode)
    (db : String → String → String → Option (List (String × String))) (token : String)
    (h : (∃ e, fromGlobalId token = .error e) ∨
      (∃ l f v, fromGlobalId token = .ok (l, f, v) ∧ ∀ nd ∈ nodes, nd.mainLabel ≠ l)) :
    globalNodeResolve nodes db token = ⟨none, 0⟩ := by
  rcases h with ⟨e, he⟩ | ⟨l, f, v, hok, hno⟩
  · simp only [globalNodeResolve, he]
  · by_cases hempty : l = "" ∨ f = "" ∨ v = ""
    · simp only [globalNodeResolve, hok]
      rw [if_pos hempty]
    · have hfind : nodes.find? (fun n => n.mainLabel = l) = none := by
        rw [List.find?_eq_none]
        intro nd hnd
        simpa using hno nd hnd
      simp only [globalNodeResolve, hok]
      rw [if_neg hempty, hfind]

/-- C10 (as stated, refuted): a token that decodes successfully
(`.ok ("Movie", "title", "")`) and names a schema type (`Movie` is present)
can still make the resolver return null: the JavaScript truthiness guard
`if (!label || !field || !id) return null` also rejects empty-string
components, so the resolver does not always return a non-null object. -/
theorem c10_counterexample :
    fromGlobalId (toGlobalId "Movie" "title" "") = .ok ("Movie", "title", "") ∧
    (⟨"Movie", "Movie"⟩ : SchemaNode) ∈ [(⟨"Movie", "Movie"⟩ : SchemaNode)] ∧
    (⟨"Movie", "Movie"⟩ : SchemaNode).mainLabel = "Movie" ∧
    (globalNodeResolve [⟨"Movie", "Movie"⟩] (fun _ _ _ => none)
      (toGlobalId "Movie" "title" "")).result = none := by
  refine ⟨fromGlobalId_toGlobalId "Movie" "title" "", by simp, rfl, ?_⟩
  simp only [globalNodeResolve, fromGlobalId_toGlobalId "Movie" "title" ""]
  rw [if_pos (by simp)]

/-- C10 (amended): when the token decodes into three NON-EMPTY components and
the decoded type name matches a schema type, the resolver returns a non-null
object whose `id` equals the original input token and whose resolve-type
equals the matched type's name; when the database returns no record the
object carries nothing beyond those two fields. -/
theorem c10_amended_resolver_object (nodes : List SchemaNode)
    (db : String → String → String → Option (List (String × String)))
    (token l f v : String) (node : SchemaNode)
    (hdec : fromGlobalId token = .ok (l, f, v))
    (hl : l ≠ "") (hf : f ≠ "") (hv : v ≠ "")
    (hfind : nodes.find? (fun n => n.mainLabel = l) = some node) :
    ∃ obj, (globalNodeResolve nodes db token).result = some obj ∧
      obj.id = token ∧ obj.resolveTypeName = node.name ∧
      (db l f v = none → obj.extraProps = []) := by
  simp only [globalNodeResolve, hdec]
  rw [if_neg (by simp [hl, hf, hv])]
  rw [hfind]
  cases hdb : db l f v with
  | some props =>
    exact ⟨_, rfl, rfl, rfl, fun hnone => Option.noConfusion hnone⟩
  | none => exact ⟨_, rfl, rfl, rfl, fun _ => rfl⟩

/-! ### Witnesses -/

theorem c2_witness : ∃ lvl table,
    compileOperation fixtureSchema jwtCtx "User" nestedSel .read = some (lvl, table) ∧
    (table.map Prod.fst).Nodup := by
  refine ⟨_, _, rfl, ?_⟩
  exact c2_parameter_names_unique fixtureSchema jwtCtx "User" nestedSel .read _ _ rfl

theorem c3_witness : ∃ lvl table,
    compileOperation fixtureSchema jwtCtx "User" nestedSel .read = some (lvl, table) ∧
    levelWhereHolds fixtureGraph table [] lvl fixtureUser =
      (userFilterHolds fixtureUser nestedSel.filter &&
        whereAuthHolds fixtureGraph jwtCtx fixtureSchema userType .read fixtureUser) := by
  refine ⟨_, _, rfl, ?_⟩
  exact c3_where_is_conjunction fixtureSchema jwtCtx "User" nestedSel .read
    fixtureGraph fixtureUser userType _ _ (Or.inl rfl) rfl rfl

theorem c4_witness : ∃ lvl table,
    compileOperation fixtureSchema jwtCtx "User" nestedSel .read = some (lvl, table) ∧
    AuthScopedOk [] lvl := by
  refine ⟨_, _, rfl, ?_⟩
  exact c4_auth_bound_at_own_level fixtureSchema jwtCtx "User" nestedSel .read _ _ rfl

theorem c5_witness :
    compileUpdateNode postType c5Input =
      fieldUpdateSteps c5Input ++ relOpSteps c5Input ++ cardValidationSteps postType ∧
    ∃ f ∈ postType.rels, f.required ∧
      relCardCount (postUpdateGraph c5Input 1 c5Graph) 1 f.relType f.direction f.target ≠ 1 ∧
      runSteps 1 c5Graph (compileUpdateNode postType c5Input) =
        .error (cardMsg postType.name f.name) :=
  ⟨(c5_cardinality_validation postType c5Input 1 c5Graph).1,
   (c5_cardinality_validation postType c5Input 1 c5Graph).2.2
     ⟨⟨"creator", "HAS_POST", .inbound, "User", true⟩, by decide, by decide, by decide⟩⟩

theorem c6_witness :
    fromGlobalId (toGlobalId "Movie" "title" "m1") = .ok ("Movie", "title", "m1") ∧
    fromGlobalId "zz" = .error .malformed :=
  ⟨c6_globalid_roundtrip.1 "Movie" "title" "m1",
   c6_globalid_roundtrip.2 "zz" (by decide)⟩

theorem c9_witness :
    globalNodeResolve [⟨"Movie", "Movie"⟩] (fun _ _ _ => none) "zz" = ⟨none, 0⟩ :=
  c9_resolver_null_no_query [⟨"Movie", "Movie"⟩] _ "zz"
    (Or.inl ⟨.malformed, by rw [fromGlobalId_not_three "zz" (by decide)]⟩)

theorem c10_witness : ∃ obj,
    (globalNodeResolve [⟨"Movie", "Movie"⟩] (fun _ _ _ => none)
      (toGlobalId "Movie" "title" "m1")).result = some obj ∧
    obj.id = toGlobalId "Movie" "title" "m1" ∧
    obj.resolveTypeName = "Movie" ∧
    ((fun _ _ _ => (none : Option (List (String × String)))) "Movie" "title" "m1" = none →
      obj.extraProps = []) :=
  c10_amended_resolver_object [⟨"Movie", "Movie"⟩] (fun _ _ _ => none)
    (toGlobalId "Movie" "title" "m1") "Movie" "title" "m1" ⟨"Movie", "Movie"⟩
    (fromGlobalId_toGlobalId "Movie" "title" "m1")
    (by decide) (by decide) (by decide) rfl

theorem c1_witness : ∃ lvl table,
    compileOperation c1Schema jwtCtx "User" c1Sel .read = some (lvl, table) ∧
    queryViolates c1Graph table lvl = true ∧
    evalQuery c1Graph table lvl = .error forbiddenMessage := by
  have hviol : queryViolates c1Graph
      (compileLevel c1Schema jwtCtx .read c1Sel allowUserType
        (allocVar "this" ⟨[], []⟩).1 "" .outbound (allocVar "this" ⟨[], []⟩).2).2.params
      (compileLevel c1Schema jwtCtx .read c1Sel allowUserType
        (allocVar "this" ⟨[], []⟩).1 "" .outbound (allocVar "this" ⟨[], []⟩).2).1 = true := by
    simp [queryViolates, rootMatches, nodesViolate, nodeViolates, childrenViolate,
      levelWhereHolds, evalPred, envLookup, paramLookup, cypherEq, propValue, neighbors,
      compileLevel, compileChildren, compileFilter, compileAuthPreds, compileAuthTemplate,
      applicableRules, allocVar, allocParam, freshName, nameCandidates, natToStr,
      resolveClaim, ContextParser.getJwtPropery, ContextParser.getContextProperty,
      getPath, dotSegments, splitSep, lookupField, lookupType, lookupRel,
      CompiledLevel.data, CompiledLevel.children, c1Schema, c1Sel, c1Graph,
      allowUserType, jwtCtx, List.range_succ, List.find?]
  exact ⟨_, _, rfl, hviol,
    c1_allow_violation_aborts_read c1Schema jwtCtx "User" c1Sel c1Graph _ _ rfl hviol⟩

theorem c7_witness : ∃ lvl table vs,
    compileOperation c7Schema jwtCtx "User" c7Sel .read = some (lvl, table) ∧
    evalQuery c7Graph table lvl = .ok vs ∧
    ∀ v ∈ vs, ConnConsistent v := by
  cases hev : evalQuery c7Graph
      (compileLevel c7Schema jwtCtx .read c7Sel
        ⟨"User", ["name"], [⟨"posts", "HAS_POST", .outbound, "Post", false⟩], []⟩
        (allocVar "this" ⟨[], []⟩).1 "" .outbound (allocVar "this" ⟨[], []⟩).2).2.params
      (compileLevel c7Schema jwtCtx .read c7Sel
        ⟨"User", ["name"], [⟨"posts", "HAS_POST", .outbound, "Post", false⟩], []⟩
        (allocVar "this" ⟨[], []⟩).1 "" .outbound (allocVar "this" ⟨[], []⟩).2).1 with
  | error e =>
    exfalso
    rw [show evalQuery = fun g table lvl =>
        evalNodes g table [] lvl (rootMatches g table lvl) from rfl] at hev
    simp [rootMatches, evalNodes, evalNode, evalChildren, except_bind_ok,
      levelWhereHolds, evalPred,
      envLookup, paramLookup, cypherEq, propValue, neighbors,
      compileLevel, compileChildren, compileFilter, compileAuthPreds, compileAuthTemplate,
      applicableRules, allocVar, allocParam, freshName, nameCandidates, natToStr,
      resolveClaim, ContextParser.getJwtPropery, ContextParser.getContextProperty,
      getPath, dotSegments, splitSep, lookupField, lookupType, lookupRel,
      CompiledLevel.data, CompiledLevel.children, Selection.fieldName, Selection.filter,
      c7Schema, c7Sel, c7Graph, jwtCtx,
      List.range_succ, List.find?] at hev
  | ok vs =>
    exact ⟨_, _, vs, rfl, hev,
      c7_totalcount_consistent c7Schema jwtCtx "User" c7Sel c7Graph _ _ vs rfl hev⟩

/-! ### C8: unresolved caller-context paths degrade, never error -/

/-- A comparison against a NULL-valued parameter is never true (the compiled
`(x IS NOT NULL AND x = $param)` pattern). -/
theorem cypherEq_none_right (x : Option String) : cypherEq x none = false := by
  cases x <;> rfl

theorem nodesViolate_of_mem (g : Graph) (table : List (String × Option String))
    (env : List (String × DbNode)) (lvl : CompiledLevel) :
    ∀ (ns : List DbNode) (n : DbNode), n ∈ ns →
    nodeViolates g table env lvl n = true → nodesViolate g table env lvl ns = true
  | [], n, hmem, _ => by simp at hmem
  | m :: rest, n, hmem, hv => by
    simp only [nodesViolate, Bool.or_eq_true]
    rcases List.mem_cons.mp hmem with heq | htail
    · left; rw [← heq]; exact hv
    · right; exact nodesViolate_of_mem g table env lvl rest n htail hv

/-- C8: when an authorization predicate dereferences a caller-context (JWT)
path that cannot be resolved, the lookup returns no value (`none`, the model
of JavaScript `undefined`) instead of raising an error, so the compiled
comparison evaluates false: a Where-mode rule degrades to excluding every
node (the compiled WHERE test is false for all nodes of all graphs), and an
Allow-mode rule degrades to rejecting the operation (any matched node makes
the whole read abort with the generic forbidden error). -/
theorem c8_unresolved_path_degrades (prop path : String) (ctx : JsonValue)
    (h : ContextParser.getJwtPropery path ctx = none) :
    resolveClaim ctx path = none ∧
    (∀ lvl table, compileOperation [c8Type .filterWhere prop path] ctx "Protected"
        (c8Sel prop) .read = some (lvl, table) →
      ∀ (g : Graph) (n : DbNode), levelWhereHolds g table [] lvl n = false) ∧
    (∀ lvl table, compileOperation [c8Type .allow prop path] ctx "Protected"
        (c8Sel prop) .read = some (lvl, table) →
      ∀ (g : Graph) (n : DbNode), n ∈ g.nodes → n.label = "Protected" →
        evalQuery g table lvl = .error forbiddenMessage) := by
  have hrc : resolveClaim ctx path = none := by
    simp [resolveClaim, h]
  refine ⟨hrc, ?_, ?_⟩
  · intro lvl table hcomp g n
    have hred : compileOperation [c8Type .filterWhere prop path] ctx "Protected"
        (c8Sel prop) .read = some
          (CompiledLevel.mk
            ⟨"this", "protecteds", "Protected", "", .outbound, false,
             [.comparison "this" prop "thisauth_param"], [], [prop]⟩ [],
           [("thisauth_param", resolveClaim ctx path)]) := by
      simp [compileOperation, compileLevel, compileChildren, compileFilter,
        compileAuthPreds, compileAuthTemplate, applicableRules, allocVar, allocParam,
        freshName, nameCandidates, natToStr, lookupType, lookupRel, c8Type, c8Sel,
        List.range_succ, List.find?]
    rw [hred] at hcomp
    simp only [Option.some.injEq, Prod.mk.injEq] at hcomp
    obtain ⟨hl, htab⟩ := hcomp
    subst hl
    subst htab
    simp [levelWhereHolds, CompiledLevel.data, evalPred, envLookup, paramLookup,
      List.find?, hrc, cypherEq_none_right]
  · intro lvl table hcomp g n hmem hlab
    have hred : compileOperation [c8Type .allow prop path] ctx "Protected"
        (c8Sel prop) .read = some
          (CompiledLevel.mk
            ⟨"this", "protecteds", "Protected", "", .outbound, false,
             [], [(.comparison "this" prop "thisauth_param", forbiddenMessage)], [prop]⟩ [],
           [("thisauth_param", resolveClaim ctx path)]) := by
      simp [compileOperation, compileLevel, compileChildren, compileFilter,
        compileAuthPreds, compileAuthTemplate, applicableRules, allocVar, allocParam,
        freshName, nameCandidates, natToStr, lookupType, lookupRel, c8Type, c8Sel,
        forbiddenMessage, List.range_succ, List.find?]
    rw [hred] at hcomp
    simp only [Option.some.injEq, Prod.mk.injEq] at hcomp
    obtain ⟨hl, htab⟩ := hcomp
    subst hl
    subst htab
    have hroot : n ∈ rootMatches g [("thisauth_param", resolveClaim ctx path)]
        (CompiledLevel.mk
          ⟨"this", "protecteds", "Protected", "", .outbound, false,
           [], [(.comparison "this" prop "thisauth_param", forbiddenMessage)], [prop]⟩ []) := by
      refine List.mem_filter.mpr ⟨hmem, ?_⟩
      simp [levelWhereHolds, CompiledLevel.data, hlab]
    have hnv : nodeViolates g [("thisauth_param", resolveClaim ctx path)] []
        (CompiledLevel.mk
          ⟨"this", "protecteds", "Protected", "", .outbound, false,
           [], [(.comparison "this" prop "thisauth_param", forbiddenMessage)], [prop]⟩ [])
        n = true := by
      simp [nodeViolates, childrenViolate, CompiledLevel.data, evalPred, envLookup,
        paramLookup, List.find?, hrc, cypherEq_none_right]
    have hviol := nodesViolate_of_mem g _ [] _ _ n hroot hnv
    have hm : MsgsForbidden
        (CompiledLevel.mk
          ⟨"this", "protecteds", "Protected", "", .outbound, false,
           [], [(.comparison "this" prop "thisauth_param", forbiddenMessage)], [prop]⟩ []) := by
      refine MsgsForbidden.mk _ _ ?_ ?_
      · intro vp hvp
        simp only [List.mem_singleton] at hvp
        rw [hvp]
      · simp
    exact (evalNodes_spec g _ [] _ _ hm).1 hviol

theorem c8_witness :
    ContextParser.getJwtPropery "sub" JsonValue.null = none ∧
    resolveClaim JsonValue.null "sub" = none := by
  have h : ContextParser.getJwtPropery "sub" JsonValue.null = none := rfl
  exact ⟨h, (c8_unresolved_path_degrades "id" "sub" JsonValue.null h).1⟩

end GraphQLModel
